import Mathlib

/-!
# ytt-lint: pulling CRD schemas (`pkg/pull/k8s.go`)

A shallow embedding of `Pull`.  The collaborators of `Pull` that live outside the
repository (the current user, the Kubernetes client, `encoding/json`, the file system) are
fields of `Env`; the control flow, the schema patching and the path derivation are
translated statement by statement.  A run yields its outcome, the final file-system state
and the sequence of calls it made.
-/

namespace YttLint

/-! ## Go values -/

/-- A Go `error`: its message and the answer of `k8serrors.IsNotFound` for it. -/
structure GoError where
  msg : String
  notFound : Bool

/-- The `JSONSchemaProps` struct of `apiextensions/v1` and `apiextensions/v1beta1` (the two
Go types have the same fields).  `Properties` is a Go map: `none` is the nil map, which is
what decoding leaves when the document has no `properties`.  `Others` holds the fields `Pull`
never names, by JSON name; the zero value has all strings and lists empty and a nil map.
`Type_` is the Go field `Type`. -/
inductive JSONSchemaProps where
  | mk (Description : String) (Type_ : String) (Format : String) (Title : String)
      (Required : List String)
      (Properties : Option (List (String × JSONSchemaProps)))
      (Others : List (String × String))

namespace JSONSchemaProps

def Description : JSONSchemaProps → String
  | mk d _ _ _ _ _ _ => d

def Type_ : JSONSchemaProps → String
  | mk _ t _ _ _ _ _ => t

def Format : JSONSchemaProps → String
  | mk _ _ f _ _ _ _ => f

def Title : JSONSchemaProps → String
  | mk _ _ _ t _ _ _ => t

def Required : JSONSchemaProps → List String
  | mk _ _ _ _ r _ _ => r

def Properties : JSONSchemaProps → Option (List (String × JSONSchemaProps))
  | mk _ _ _ _ _ p _ => p

def Others : JSONSchemaProps → List (String × String)
  | mk _ _ _ _ _ _ o => o

/-- The struct with its `Properties` field replaced. -/
def withProperties : JSONSchemaProps → Option (List (String × JSONSchemaProps)) → JSONSchemaProps
  | mk d t f ti r _ o, p => mk d t f ti r p o

/-- The composite literal `JSONSchemaProps{Type: t}`: every other field is zero. -/
def ofType (t : String) : JSONSchemaProps :=
  mk "" t "" "" [] none []

end JSONSchemaProps

/-! ## Go maps with string keys -/

/-- The read `m[k]` on the entries of a non-nil map. -/
def mapLookup (k : String) : List (String × JSONSchemaProps) → Option JSONSchemaProps
  | [] => none
  | (k', v) :: m => if k' = k then some v else mapLookup k m

/-- The assignment `m[k] = v` on the entries of a non-nil map: an existing entry is replaced,
a new one is added. -/
def mapAssign (k : String) (v : JSONSchemaProps) :
    List (String × JSONSchemaProps) → List (String × JSONSchemaProps)
  | [] => [(k, v)]
  | (k', v') :: m => if k' = k then (k, v) :: m else (k', v') :: mapAssign k v m

/-- The read `schema.Properties[k]` with its comma-ok result; reading a nil map finds
nothing. -/
def getProperty (schema : JSONSchemaProps) (k : String) : Option JSONSchemaProps :=
  match schema.Properties with
  | none => none
  | some m => mapLookup k m

/-- The assignment `schema.Properties[k] = v`; `none` is the run-time panic
`assignment to entry in nil map`. -/
def setProperty (schema : JSONSchemaProps) (k : String) (v : JSONSchemaProps) :
    Option JSONSchemaProps :=
  match schema.Properties with
  | none => none
  | some m => some (schema.withProperties (some (mapAssign k v m)))

/-! ## CRD objects -/

/-- The struct `CustomResourceValidation` (same in both API generations). -/
structure CustomResourceValidation where
  OpenAPIV3Schema : Option JSONSchemaProps

/-- The struct `CustomResourceDefinitionNames`, the field `Pull` reads. -/
structure CustomResourceDefinitionNames where
  Kind : String

/-- The struct `CustomResourceDefinitionVersion`, the fields `Pull` reads. -/
structure CustomResourceDefinitionVersion where
  Name : String
  Schema : Option CustomResourceValidation

namespace apiextensionsv1

structure CustomResourceDefinitionSpec where
  Group : String
  Names : CustomResourceDefinitionNames
  Versions : List CustomResourceDefinitionVersion

structure CustomResourceDefinition where
  Spec : CustomResourceDefinitionSpec

end apiextensionsv1

namespace apiextensionsv1beta1

structure CustomResourceDefinitionSpec where
  Group : String
  Names : CustomResourceDefinitionNames
  Validation : Option CustomResourceValidation
  Versions : List CustomResourceDefinitionVersion

structure CustomResourceDefinition where
  Spec : CustomResourceDefinitionSpec

end apiextensionsv1beta1

/-! ## `path.Join` -/

/-- One element of a path under `path.Clean`: empty elements and `.` are dropped, `..`
removes the element before it, or is kept at the front of a path that is not rooted. -/
def cleanStep (rooted : Bool) (out : List (List Char)) (elem : List Char) : List (List Char) :=
  if elem = [] ∨ elem = ['.'] then out
  else if elem = ['.', '.'] then
    match out.getLast? with
    | none => if rooted then out else out ++ [elem]
    | some top => if top = ['.', '.'] then out ++ [elem] else out.dropLast
  else out ++ [elem]

/-- Go `path.Clean`. -/
def pathClean (p : String) : String :=
  if p = "" then "."
  else
    let rooted := p.data.head? = some '/'
    let out := (p.data.splitOn '/').foldl (cleanStep rooted) []
    if rooted then String.mk ('/' :: List.intercalate ['/'] out)
    else if out = [] then "."
    else String.mk (List.intercalate ['/'] out)

/-- Go `path.Join`: the elements from the first non-empty one on are joined with slashes
and cleaned; the result is empty when every element is empty. -/
def pathJoin (elem : List String) : String :=
  match elem.dropWhile (fun e => e = "") with
  | [] => ""
  | es => pathClean (String.intercalate "/" es)

/-! ## The world around `Pull` -/

/-- The file system as `Pull` sees it: the directories made and the files with their
content. -/
structure FS where
  dirs : List String
  files : List (String × String)

/-- A successful `os.MkdirAll(dir, os.ModePerm)`. -/
def FS.mkdirAll (fs : FS) (dir : String) : FS :=
  { fs with dirs := if dir ∈ fs.dirs then fs.dirs else fs.dirs ++ [dir] }

/-- A successful `ioutil.WriteFile(name, data, os.ModePerm)`: the file holds `data`. -/
def FS.writeFile (fs : FS) (name data : String) : FS :=
  { fs with files := (name, data) :: fs.files.filter (fun f => f.1 ≠ name) }

/-- The content of a file, when it exists. -/
def FS.read (fs : FS) (name : String) : Option String :=
  (fs.files.find? (fun f => f.1 = name)).map Prod.snd

/-- The value `apiextensionsclientset.NewForConfig` returns on success, seen through the two
list calls `Pull` makes on it. -/
structure Clientset where
  listV1 : Except GoError (List apiextensionsv1.CustomResourceDefinition)
  listV1beta1 : Except GoError (List apiextensionsv1beta1.CustomResourceDefinition)

/-- What lies outside the repository.  A failing file-system call leaves the state as it
was. -/
structure Env where
  /-- The call `user.Current()`, giving `usr.HomeDir`. -/
  userCurrent : Except GoError String
  /-- The call `kubeConfig.ClientConfig()`. -/
  clientConfig : Except GoError Unit
  /-- The call `apiextensionsclientset.NewForConfig(config)`; on an error the clientset it
  returns is nil. -/
  newForConfig : Except GoError Clientset
  /-- The call `json.Unmarshal` on `metadataTemplateJSON`. -/
  unmarshalTemplate : Except GoError JSONSchemaProps
  /-- The call `json.Marshal(schema)`. -/
  marshal : JSONSchemaProps → Except GoError String
  /-- The error of `os.MkdirAll`, if it fails in this state. -/
  mkdirAllErr : FS → String → Option GoError
  /-- The error of `ioutil.WriteFile`, if it fails in this state. -/
  writeFileErr : FS → String → String → Option GoError
  /-- Go `strings.ToLower`. -/
  toLower : String → String

/-- The calls `Pull` makes, in order. -/
inductive Event where
  | listV1
  | listV1beta1
  | stdout (text : String)
  | mkdirAll (dir : String)
  | marshal (schema : JSONSchemaProps)
  | writeFile (name data : String)

/-- How a run, or a part of one, ends. -/
inductive Outcome where
  | error (msg : String)
  | panic (msg : String)

/-- The effect of a piece of `Pull`: the file system after it, the calls it made, and
`some` outcome when it left `Pull` (a `return` of an error, or a panic), `none` when control
goes on. -/
structure Effect where
  fs : FS
  events : List Event
  exit : Option Outcome

/-- Control goes on with nothing done. -/
def Effect.skip (fs : FS) : Effect :=
  ⟨fs, [], none⟩

/-- Sequencing: the second piece runs only when the first did not leave `Pull`. -/
def Effect.andThen (a : Effect) (b : FS → Effect) : Effect :=
  match a.exit with
  | some _ => a
  | none => ⟨(b a.fs).fs, a.events ++ (b a.fs).events, (b a.fs).exit⟩

/-- The schema a `*CustomResourceValidation` carries: `none` when the pointer or its
`OpenAPIV3Schema` is nil. -/
def embeddedSchema : Option CustomResourceValidation → Option JSONSchemaProps
  | none => none
  | some v => v.OpenAPIV3Schema

/-! ## The legacy branch (lines 46-98) -/

/-- Lines 70-80: the three statements that patch `schema.Properties`. -/
def patchV1beta1 (metadataTemplate schema : JSONSchemaProps) : Option JSONSchemaProps :=
  (setProperty schema "metadata" metadataTemplate).bind fun s1 =>
  (if (getProperty s1 "kind").isSome then some s1
   else setProperty s1 "kind" (JSONSchemaProps.ofType "string")).bind fun s2 =>
  if (getProperty s2 "apiVersion").isSome then some s2
  else setProperty s2 "apiVersion" (JSONSchemaProps.ofType "string")

/-- Lines 67-96: what one iteration does once `schema` is selected.  The second component
is the object `schema` points to afterwards. -/
def writeV1beta1 (env : Env) (schemaDir : String) (metadataTemplate : JSONSchemaProps)
    (kind group versionName : String) (schema : JSONSchemaProps) (fs : FS) :
    Effect × JSONSchemaProps :=
  let dirname := pathJoin [schemaDir, group, versionName]
  let filename := pathJoin [dirname, env.toLower kind ++ ".json"]
  match patchV1beta1 metadataTemplate schema with
  | none => (⟨fs, [], some (.panic "assignment to entry in nil map")⟩, schema)
  | some schema' =>
    match env.mkdirAllErr fs dirname with
    | some err => (⟨fs, [.mkdirAll dirname], some (.error ("os.MkdirAll: " ++ err.msg))⟩, schema')
    | none =>
      match env.marshal schema' with
      | .error err =>
        (⟨fs.mkdirAll dirname, [.mkdirAll dirname, .marshal schema'],
          some (.error ("json.Marshal(schema): " ++ err.msg))⟩, schema')
      | .ok data =>
        let notice := "Writing schema for " ++ kind ++ " version " ++ versionName ++
          " of group " ++ group ++ " to " ++ filename ++ "\n"
        let events := [.mkdirAll dirname, .marshal schema', .stdout notice,
          .writeFile filename data]
        match env.writeFileErr (fs.mkdirAll dirname) filename data with
        | some err =>
          (⟨fs.mkdirAll dirname, events, some (.error ("ioutil.WriteFile: " ++ err.msg))⟩,
            schema')
        | none => (⟨(fs.mkdirAll dirname).writeFile filename data, events, none⟩, schema')

/-- Lines 57-96: one iteration of the inner loop.  `validation` is `crd.Spec.Validation` as
the earlier iterations left it; the second component is what this one leaves. -/
def versionV1beta1 (env : Env) (schemaDir : String) (metadataTemplate : JSONSchemaProps)
    (kind group : String) (validation : Option CustomResourceValidation)
    (version : CustomResourceDefinitionVersion) (fs : FS) :
    Effect × Option CustomResourceValidation :=
  match embeddedSchema version.Schema with
  | none =>
    match embeddedSchema validation with
    | none =>
      (⟨fs, [.stdout (kind ++ " version " ++ version.Name ++ " of group " ++ group ++
        " does not contain a schema and will be skipped.\n")], none⟩, validation)
    | some schema =>
      let r := writeV1beta1 env schemaDir metadataTemplate kind group version.Name schema fs
      (r.1, some ⟨some r.2⟩)
  | some schema =>
    ((writeV1beta1 env schemaDir metadataTemplate kind group version.Name schema fs).1,
      validation)

/-- Lines 56-97: the loop over `crd.Spec.Versions`. -/
def versionsV1beta1 (env : Env) (schemaDir : String) (metadataTemplate : JSONSchemaProps)
    (kind group : String) :
    Option CustomResourceValidation → List CustomResourceDefinitionVersion → FS → Effect
  | _, [], fs => Effect.skip fs
  | validation, version :: rest, fs =>
    let r := versionV1beta1 env schemaDir metadataTemplate kind group validation version fs
    r.1.andThen (versionsV1beta1 env schemaDir metadataTemplate kind group r.2 rest)

/-- Lines 52-98: the loop over `crds.Items`. -/
def crdsV1beta1 (env : Env) (schemaDir : String) (metadataTemplate : JSONSchemaProps) :
    List apiextensionsv1beta1.CustomResourceDefinition → FS → Effect
  | [], fs => Effect.skip fs
  | crd :: rest, fs =>
    (versionsV1beta1 env schemaDir metadataTemplate crd.Spec.Names.Kind crd.Spec.Group
      crd.Spec.Validation crd.Spec.Versions fs).andThen
      (crdsV1beta1 env schemaDir metadataTemplate rest)

/-! ## The stable branch (lines 101-149) -/

/-- Lines 121-131: the three statements that patch `schema.Properties`. -/
def patchV1 (metadataTemplate schema : JSONSchemaProps) : Option JSONSchemaProps :=
  (setProperty schema "metadata" metadataTemplate).bind fun s1 =>
  (if (getProperty s1 "kind").isSome then some s1
   else setProperty s1 "kind" (JSONSchemaProps.ofType "string")).bind fun s2 =>
  if (getProperty s2 "apiVersion").isSome then some s2
  else setProperty s2 "apiVersion" (JSONSchemaProps.ofType "string")

/-- Lines 118-147: what one iteration does once `schema` is selected. -/
def writeV1 (env : Env) (schemaDir : String) (metadataTemplate : JSONSchemaProps)
    (kind group versionName : String) (schema : JSONSchemaProps) (fs : FS) : Effect :=
  let dirname := pathJoin [schemaDir, group, versionName]
  let filename := pathJoin [dirname, env.toLower kind ++ ".json"]
  match patchV1 metadataTemplate schema with
  | none => ⟨fs, [], some (.panic "assignment to entry in nil map")⟩
  | some schema' =>
    match env.mkdirAllErr fs dirname with
    | some err => ⟨fs, [.mkdirAll dirname], some (.error ("os.MkdirAll: " ++ err.msg))⟩
    | none =>
      match env.marshal schema' with
      | .error err =>
        ⟨fs.mkdirAll dirname, [.mkdirAll dirname, .marshal schema'],
          some (.error ("json.Marshal(schema): " ++ err.msg))⟩
      | .ok data =>
        let notice := "Writing schema for " ++ kind ++ " version " ++ versionName ++
          " of group " ++ group ++ " to " ++ filename ++ "\n"
        let events := [.mkdirAll dirname, .marshal schema', .stdout notice,
          .writeFile filename data]
        match env.writeFileErr (fs.mkdirAll dirname) filename data with
        | some err =>
          ⟨fs.mkdirAll dirname, events, some (.error ("ioutil.WriteFile: " ++ err.msg))⟩
        | none => ⟨(fs.mkdirAll dirname).writeFile filename data, events, none⟩

/-- Lines 112-147: one iteration of the inner loop. -/
def versionV1 (env : Env) (schemaDir : String) (metadataTemplate : JSONSchemaProps)
    (kind group : String) (version : CustomResourceDefinitionVersion) (fs : FS) : Effect :=
  match embeddedSchema version.Schema with
  | none => Effect.skip fs
  | some schema => writeV1 env schemaDir metadataTemplate kind group version.Name schema fs

/-- Lines 111-148: the loop over `crd.Spec.Versions`. -/
def versionsV1 (env : Env) (schemaDir : String) (metadataTemplate : JSONSchemaProps)
    (kind group : String) : List CustomResourceDefinitionVersion → FS → Effect
  | [], fs => Effect.skip fs
  | version :: rest, fs =>
    (versionV1 env schemaDir metadataTemplate kind group version fs).andThen
      (versionsV1 env schemaDir metadataTemplate kind group rest)

/-- Lines 107-149: the loop over `crds.Items`. -/
def crdsV1 (env : Env) (schemaDir : String) (metadataTemplate : JSONSchemaProps) :
    List apiextensionsv1.CustomResourceDefinition → FS → Effect
  | [], fs => Effect.skip fs
  | crd :: rest, fs =>
    (versionsV1 env schemaDir metadataTemplate crd.Spec.Names.Kind crd.Spec.Group
      crd.Spec.Versions fs).andThen (crdsV1 env schemaDir metadataTemplate rest)

/-! ## `Pull` -/

/-- The line `fmt.Println` prints before the legacy list call. -/
def fallbackNotice : String :=
  "Error for ApiextensionsV1. Falling back to ApiextensionsV1beta1.\n"

/-- Lines 41-98: the legacy branch, entered after the notice. -/
def legacyBranch (env : Env) (schemaDir : String) (clientset : Clientset) (fs : FS) : Effect :=
  match clientset.listV1beta1 with
  | .error err =>
    ⟨fs, [.listV1beta1], some (.error
      ("crdClientset.ApiextensionsV1().CustomResourceDefinitions().List(): " ++ err.msg))⟩
  | .ok crds =>
    match env.unmarshalTemplate with
    | .error err =>
      ⟨fs, [.listV1beta1], some (.error
        ("json.Unmarshal([]byte(metadataTemplateJSON), &metadataTemplate): " ++ err.msg))⟩
    | .ok metadataTemplate =>
      Effect.andThen ⟨fs, [.listV1beta1], none⟩ (crdsV1beta1 env schemaDir metadataTemplate crds)

/-- Lines 101-149: the stable branch. -/
def stableBranch (env : Env) (schemaDir : String)
    (crds : List apiextensionsv1.CustomResourceDefinition) (fs : FS) : Effect :=
  match env.unmarshalTemplate with
  | .error err =>
    ⟨fs, [], some (.error
      ("json.Unmarshal([]byte(metadataTemplateJSON), &metadataTemplate): " ++ err.msg))⟩
  | .ok metadataTemplate => crdsV1 env schemaDir metadataTemplate crds fs

/-- The function `Pull`.  `exit = none` is `return nil`. -/
def Pull (env : Env) (fs : FS) : Effect :=
  match env.userCurrent with
  | .error err => ⟨fs, [], some (.error ("user.Current(): " ++ err.msg))⟩
  | .ok homeDir =>
    let schemaDir := pathJoin [homeDir, ".ytt-lint", "schema", "k8s"]
    match env.clientConfig with
    | .error err => ⟨fs, [], some (.error ("kubeConfig.ClientConfig(): " ++ err.msg))⟩
    | .ok _ =>
      -- line 33: the error of NewForConfig is assigned and never read
      match env.newForConfig with
      | .error _ =>
        -- line 35: method call through the nil clientset
        ⟨fs, [], some (.panic
          "runtime error: invalid memory address or nil pointer dereference")⟩
      | .ok crdClientset =>
        match crdClientset.listV1 with
        | .error err =>
          if !err.notFound then
            ⟨fs, [.listV1], some (.error
              ("crdClientset.ApiextensionsV1().CustomResourceDefinitions().List(): " ++
                err.msg))⟩
          else
            Effect.andThen ⟨fs, [.listV1, .stdout fallbackNotice], none⟩
              (legacyBranch env schemaDir crdClientset)
        | .ok crds =>
          Effect.andThen ⟨fs, [.listV1], none⟩ (stableBranch env schemaDir crds)


/-! ## Reading a sequence of calls -/

/-- The directories handed to `os.MkdirAll`, in order. -/
def madeDirs : List Event → List String
  | [] => []
  | .mkdirAll d :: es => d :: madeDirs es
  | _ :: es => madeDirs es

/-- The schemas handed to `json.Marshal`, in order. -/
def marshalled : List Event → List JSONSchemaProps
  | [] => []
  | .marshal s :: es => s :: marshalled es
  | _ :: es => marshalled es

/-- The files handed to `ioutil.WriteFile`, name and content, in order. -/
def written : List Event → List (String × String)
  | [] => []
  | .writeFile n d :: es => (n, d) :: written es
  | _ :: es => written es

/-- The lines printed, in order. -/
def printed : List Event → List String
  | [] => []
  | .stdout t :: es => t :: printed es
  | _ :: es => printed es

def Event.isListV1 : Event → Bool
  | .listV1 => true
  | _ => false

def Event.isListV1beta1 : Event → Bool
  | .listV1beta1 => true
  | _ => false

def Event.isStdout (text : String) : Event → Bool
  | .stdout t => decide (t = text)
  | _ => false

def Event.isWriteFile : Event → Bool
  | .writeFile _ _ => true
  | _ => false

/-- The calls the two loops can make: no list call, and nothing printed that reads like the
fallback notice. -/
def Event.fromLoop : Event → Prop
  | .listV1 => False
  | .listV1beta1 => False
  | .stdout t => t ≠ fallbackNotice
  | _ => True

/-- The guarded assignment `if _, ok := m[k]; !ok { m[k] = v }` on a non-nil map. -/
def addIfAbsent (k : String) (v : JSONSchemaProps) (m : List (String × JSONSchemaProps)) :
    List (String × JSONSchemaProps) :=
  if (mapLookup k m).isSome then m else mapAssign k v m

/-- The entries the three patching statements leave in a non-nil map. -/
def patchedEntries (metadataTemplate : JSONSchemaProps) (m : List (String × JSONSchemaProps)) :
    List (String × JSONSchemaProps) :=
  addIfAbsent "apiVersion" (JSONSchemaProps.ofType "string")
    (addIfAbsent "kind" (JSONSchemaProps.ofType "string")
      (mapAssign "metadata" metadataTemplate m))

/-! ## The contract of section 4.3, in the words of the specification -/

/-- The directory of a (group, version name) pair: `root/group/versionName`, the slash
being `path.Join`. -/
def specDirname (root group versionName : String) : String :=
  pathJoin [root, group, versionName]

/-- The file of a (group, version name, kind) triple: `dirname/lowercase(kind)+".json"`. -/
def specFilename (lowercase : String → String) (root group versionName kind : String) : String :=
  pathJoin [specDirname root group versionName, lowercase kind ++ ".json"]

/-! ## Sample inputs -/

namespace Sample

/-- A small stand-in for the value `json.Unmarshal` builds from `metadataTemplateJSON`. -/
def template : JSONSchemaProps :=
  .mk "ObjectMeta is metadata that all persisted resources must have, which includes all objects users must create."
    "object" "" "" []
    (some [("name", .ofType "string"), ("namespace", .ofType "string"),
      ("generation", .mk "" "integer" "int64" "" [] none [])]) []

/-- A stand-in for `json.Marshal`: the type, then the property names with their types. -/
def marshal (s : JSONSchemaProps) : Except GoError String :=
  .ok (s.Type_ ++ match s.Properties with
    | none => ""
    | some m => "(" ++ String.intercalate "," (m.map fun kv => kv.1 ++ ":" ++ kv.2.Type_) ++ ")")

/-- ASCII lower-casing, which is what `strings.ToLower` does on ASCII text. -/
def toLower (s : String) : String :=
  String.mk (s.data.map Char.toLower)

/-- Working credentials and a healthy file system around the given client. -/
def env (newForConfig : Except GoError Clientset) : Env where
  userCurrent := .ok "/home/u"
  clientConfig := .ok ()
  newForConfig := newForConfig
  unmarshalTemplate := .ok template
  marshal := marshal
  mkdirAllErr := fun _ _ => none
  writeFileErr := fun _ _ _ => none
  toLower := toLower

def emptyFS : FS :=
  ⟨[], []⟩

/-- The error a server without the requested API group answers with. -/
def notFound : GoError :=
  ⟨"the server could not find the requested resource", true⟩

/-- The schema `type: object, properties: (spec: (type: object))`. -/
def specSchema : JSONSchemaProps :=
  .mk "" "object" "" "" [] (some [("spec", .ofType "object")]) []

/-- The schema `type: object` with no `properties`: its map is nil. -/
def bareSchema : JSONSchemaProps :=
  .ofType "object"

/-- A schema that declares `kind` as an integer and `metadata` as a string. -/
def declaredSchema : JSONSchemaProps :=
  .mk "" "object" "" "" []
    (some [("kind", .ofType "integer"), ("metadata", .ofType "string"),
      ("spec", .ofType "object")]) []

def version (name : String) (schema : Option JSONSchemaProps) : CustomResourceDefinitionVersion :=
  ⟨name, schema.map fun s => ⟨some s⟩⟩

def crdV1 (kind group : String) (versions : List CustomResourceDefinitionVersion) :
    apiextensionsv1.CustomResourceDefinition :=
  ⟨⟨group, ⟨kind⟩, versions⟩⟩

def crdV1beta1 (kind group : String) (validation : Option JSONSchemaProps)
    (versions : List CustomResourceDefinitionVersion) :
    apiextensionsv1beta1.CustomResourceDefinition :=
  ⟨⟨group, ⟨kind⟩, validation.map fun s => ⟨some s⟩, versions⟩⟩

/-- A client whose server has the stable API. -/
def stableClient (crds : List apiextensionsv1.CustomResourceDefinition) : Clientset :=
  ⟨.ok crds, .error notFound⟩

/-- A client whose server has the legacy API only. -/
def legacyClient (crds : List apiextensionsv1beta1.CustomResourceDefinition) : Clientset :=
  ⟨.error notFound, .ok crds⟩

/-- A server with the stable API. -/
def stable (crds : List apiextensionsv1.CustomResourceDefinition) : Env :=
  env (.ok (stableClient crds))

/-- A server with the legacy API only. -/
def legacy (crds : List apiextensionsv1beta1.CustomResourceDefinition) : Env :=
  env (.ok (legacyClient crds))

/-- A server with the stable API and a file system on which one directory cannot be made. -/
def readOnlyAt (dir : String) (crds : List apiextensionsv1.CustomResourceDefinition) : Env :=
  { stable crds with
    mkdirAllErr := fun _ d => if d = dir then some ⟨"permission denied", false⟩ else none }

end Sample

/-! ## Clean paths -/

/-- A path element that `path.Clean` keeps as it is: not empty, without a slash, and neither
`.` nor `..`. -/
def PlainElem (e : List Char) : Prop :=
  e ≠ [] ∧ '/' ∉ e ∧ e ≠ ['.'] ∧ e ≠ ['.', '.']

/-- The shape of the element stack of `path.Clean`: some `..` elements, none when the path
is rooted, then plain elements. -/
def Cleaned (rooted : Bool) (out : List (List Char)) : Prop :=
  ∃ n rest, out = List.replicate n ['.', '.'] ++ rest ∧ (∀ e ∈ rest, PlainElem e) ∧
    (rooted = true → n = 0)

/-- The characters `path.Clean` returns for an element stack. -/
def renderPath (rooted : Bool) (out : List (List Char)) : List Char :=
  if rooted then '/' :: List.intercalate ['/'] out
  else if out = [] then ['.']
  else List.intercalate ['/'] out

/-- A cleaned path that is neither `.` nor `/`: the rendering of a cleaned stack that is not
empty. -/
def IsCleanPath (p : String) : Prop :=
  ∃ rooted out, Cleaned rooted out ∧ out ≠ [] ∧ p = String.mk (renderPath rooted out)

/-- A name that stands for itself in a path: not empty, without a slash, and neither `.` nor
`..`.  Every group, version name and lower-cased kind an API server accepts is one. -/
def PlainName (s : String) : Prop :=
  s ≠ "" ∧ '/' ∉ s.data ∧ s ≠ "." ∧ s ≠ ".."


/-! ## Go maps -/

theorem mapLookup_mapAssign_self (k : String) (v : JSONSchemaProps)
    (m : List (String × JSONSchemaProps)) : mapLookup k (mapAssign k v m) = some v := by
  induction m with
  | nil => simp [mapAssign, mapLookup]
  | cons kv m ih =>
    obtain ⟨k', v'⟩ := kv
    by_cases h : k' = k
    · simp [mapAssign, mapLookup, h]
    · simp [mapAssign, mapLookup, h, ih]

theorem mapLookup_mapAssign_of_ne {k k' : String} (hne : k' ≠ k) (v : JSONSchemaProps)
    (m : List (String × JSONSchemaProps)) :
    mapLookup k' (mapAssign k v m) = mapLookup k' m := by
  induction m with
  | nil => simp [mapAssign, mapLookup, Ne.symm hne]
  | cons kv m ih =>
    obtain ⟨k₁, v₁⟩ := kv
    by_cases h : k₁ = k
    · subst h
      simp [mapAssign, mapLookup, Ne.symm hne]
    · by_cases h' : k₁ = k'
      · subst h'
        simp [mapAssign, mapLookup, h]
      · simp [mapAssign, mapLookup, h, h', ih]

theorem mapLookup_addIfAbsent (k k' : String) (v : JSONSchemaProps)
    (m : List (String × JSONSchemaProps)) :
    mapLookup k' (addIfAbsent k v m) =
      if k' = k then some ((mapLookup k m).getD v) else mapLookup k' m := by
  unfold addIfAbsent
  by_cases hk : k' = k
  · subst hk
    cases h : mapLookup k' m with
    | none => simp [h, mapLookup_mapAssign_self]
    | some e => simp [h]
  · by_cases h : (mapLookup k m).isSome
    · simp [h, hk]
    · simp [h, hk, mapLookup_mapAssign_of_ne hk]

theorem mapLookup_patchedEntries (metadataTemplate : JSONSchemaProps)
    (m : List (String × JSONSchemaProps)) (k : String) :
    mapLookup k (patchedEntries metadataTemplate m) =
      if k = "apiVersion" then
        some ((mapLookup "apiVersion" m).getD (JSONSchemaProps.ofType "string"))
      else if k = "kind" then some ((mapLookup "kind" m).getD (JSONSchemaProps.ofType "string"))
      else if k = "metadata" then some metadataTemplate
      else mapLookup k m := by
  have hka : ("kind" : String) ≠ "apiVersion" := by decide
  have hkm : ("kind" : String) ≠ "metadata" := by decide
  have ham : ("apiVersion" : String) ≠ "metadata" := by decide
  unfold patchedEntries
  rw [mapLookup_addIfAbsent, mapLookup_addIfAbsent, mapLookup_addIfAbsent,
    mapLookup_mapAssign_of_ne ham, mapLookup_mapAssign_of_ne hkm]
  by_cases h1 : k = "apiVersion"
  · subst h1
    simp [hka.symm]
  · by_cases h2 : k = "kind"
    · subst h2
      simp [h1]
    · by_cases h3 : k = "metadata"
      · subst h3
        simp [h1, h2, mapLookup_mapAssign_self]
      · simp [h1, h2, h3, mapLookup_mapAssign_of_ne h3]

/-! ## The patching statements -/

theorem JSONSchemaProps.Properties_withProperties (s : JSONSchemaProps)
    (p : Option (List (String × JSONSchemaProps))) : (s.withProperties p).Properties = p := by
  cases s; rfl

theorem JSONSchemaProps.withProperties_withProperties (s : JSONSchemaProps)
    (p q : Option (List (String × JSONSchemaProps))) :
    (s.withProperties p).withProperties q = s.withProperties q := by
  cases s; rfl

theorem patchV1_eq (metadataTemplate schema : JSONSchemaProps) :
    patchV1 metadataTemplate schema =
      schema.Properties.map fun m =>
        schema.withProperties (some (patchedEntries metadataTemplate m)) := by
  cases hp : schema.Properties with
  | none => simp [patchV1, setProperty, hp]
  | some m =>
    by_cases h1 : (mapLookup "kind" (mapAssign "metadata" metadataTemplate m)).isSome
    · by_cases h2 : (mapLookup "apiVersion" (mapAssign "metadata" metadataTemplate m)).isSome
      · simp [patchV1, setProperty, hp, getProperty, patchedEntries, addIfAbsent, h1, h2,
          JSONSchemaProps.Properties_withProperties,
          JSONSchemaProps.withProperties_withProperties]
      · simp [patchV1, setProperty, hp, getProperty, patchedEntries, addIfAbsent, h1, h2,
          JSONSchemaProps.Properties_withProperties,
          JSONSchemaProps.withProperties_withProperties]
    · by_cases h2 : (mapLookup "apiVersion" (mapAssign "kind" (JSONSchemaProps.ofType "string")
          (mapAssign "metadata" metadataTemplate m))).isSome
      · simp [patchV1, setProperty, hp, getProperty, patchedEntries, addIfAbsent, h1, h2,
          JSONSchemaProps.Properties_withProperties,
          JSONSchemaProps.withProperties_withProperties]
      · simp [patchV1, setProperty, hp, getProperty, patchedEntries, addIfAbsent, h1, h2,
          JSONSchemaProps.Properties_withProperties,
          JSONSchemaProps.withProperties_withProperties]

theorem patchV1beta1_eq_patchV1 : patchV1beta1 = patchV1 :=
  rfl

/-- The patching statements panic exactly on a schema whose `Properties` map is nil. -/
theorem patchV1_eq_none_iff (metadataTemplate schema : JSONSchemaProps) :
    patchV1 metadataTemplate schema = none ↔ schema.Properties = none := by
  rw [patchV1_eq]
  cases schema.Properties <;> simp

/-- What the patching statements do to a schema, read through `getProperty`. -/
theorem getProperty_patchV1 {metadataTemplate schema schema' : JSONSchemaProps}
    (h : patchV1 metadataTemplate schema = some schema') (k : String) :
    schema' = schema.withProperties schema'.Properties ∧
    getProperty schema' k =
      if k = "apiVersion" then
        some ((getProperty schema "apiVersion").getD (JSONSchemaProps.ofType "string"))
      else if k = "kind" then
        some ((getProperty schema "kind").getD (JSONSchemaProps.ofType "string"))
      else if k = "metadata" then some metadataTemplate
      else getProperty schema k := by
  rw [patchV1_eq] at h
  cases hp : schema.Properties with
  | none => simp [hp] at h
  | some m =>
    simp only [hp, Option.map_some', Option.some.injEq] at h
    subst h
    simp [getProperty, hp, mapLookup_patchedEntries,
      JSONSchemaProps.Properties_withProperties,
      JSONSchemaProps.withProperties_withProperties]

/-! ## Sequencing and the loops -/

theorem Effect.andThen_events (a : Effect) (b : FS → Effect) :
    (a.andThen b).events = if a.exit.isSome then a.events else a.events ++ (b a.fs).events := by
  unfold Effect.andThen
  cases h : a.exit <;> simp

theorem Effect.mem_andThen_events {a : Effect} {b : FS → Effect} {e : Event}
    (h : e ∈ (a.andThen b).events) : e ∈ a.events ∨ e ∈ (b a.fs).events := by
  rw [Effect.andThen_events] at h
  split_ifs at h
  · exact Or.inl h
  · exact List.mem_append.mp h

theorem writeV1beta1_fst (env : Env) (schemaDir : String) (t : JSONSchemaProps)
    (kind group name : String) (schema : JSONSchemaProps) (fs : FS) :
    (writeV1beta1 env schemaDir t kind group name schema fs).1 =
      writeV1 env schemaDir t kind group name schema fs := by
  unfold writeV1beta1 writeV1
  rw [patchV1beta1_eq_patchV1]
  simp only
  split
  · rfl
  · split
    · rfl
    · split
      · rfl
      · split <;> rfl

/-- Every call of the stable loops is a call of some `writeV1`. -/
theorem forall_events_crdsV1 {P : Event → Prop} (env : Env) (schemaDir : String)
    (t : JSONSchemaProps)
    (hw : ∀ kind group name schema fs,
      ∀ e ∈ (writeV1 env schemaDir t kind group name schema fs).events, P e)
    (crds : List apiextensionsv1.CustomResourceDefinition) (fs : FS) :
    ∀ e ∈ (crdsV1 env schemaDir t crds fs).events, P e := by
  have hversion : ∀ kind group version fs,
      ∀ e ∈ (versionV1 env schemaDir t kind group version fs).events, P e := by
    intro kind group version fs
    unfold versionV1
    split
    · simp [Effect.skip]
    · exact hw _ _ _ _ _
  have hversions : ∀ kind group (versions : List CustomResourceDefinitionVersion) fs,
      ∀ e ∈ (versionsV1 env schemaDir t kind group versions fs).events, P e := by
    intro kind group versions
    induction versions with
    | nil => simp [versionsV1, Effect.skip]
    | cons v vs ih =>
      intro fs e he
      rcases Effect.mem_andThen_events he with h | h
      · exact hversion _ _ _ _ e h
      · exact ih _ e h
  induction crds generalizing fs with
  | nil => simp [crdsV1, Effect.skip]
  | cons c cs ih =>
    intro e he
    rcases Effect.mem_andThen_events he with h | h
    · exact hversions _ _ _ _ e h
    · exact ih _ e h

/-- Every call of the legacy loops is a call of some `writeV1beta1`, or the skip notice. -/
theorem forall_events_crdsV1beta1 {P : Event → Prop} (env : Env) (schemaDir : String)
    (t : JSONSchemaProps)
    (hw : ∀ kind group name schema fs,
      ∀ e ∈ (writeV1 env schemaDir t kind group name schema fs).events, P e)
    (hs : ∀ kind name group : String, P (.stdout (kind ++ " version " ++ name ++ " of group " ++
      group ++ " does not contain a schema and will be skipped.\n")))
    (crds : List apiextensionsv1beta1.CustomResourceDefinition) (fs : FS) :
    ∀ e ∈ (crdsV1beta1 env schemaDir t crds fs).events, P e := by
  have hversion : ∀ kind group validation version fs,
      ∀ e ∈ (versionV1beta1 env schemaDir t kind group validation version fs).1.events,
        P e := by
    intro kind group validation version fs
    unfold versionV1beta1
    split
    · split
      · intro e he
        simp at he
        subst he
        exact hs _ _ _
      · simp only [writeV1beta1_fst]
        exact hw _ _ _ _ _
    · simp only [writeV1beta1_fst]
      exact hw _ _ _ _ _
  have hversions : ∀ kind group (versions : List CustomResourceDefinitionVersion) validation fs,
      ∀ e ∈ (versionsV1beta1 env schemaDir t kind group validation versions fs).events,
        P e := by
    intro kind group versions
    induction versions with
    | nil => simp [versionsV1beta1, Effect.skip]
    | cons v vs ih =>
      intro validation fs e he
      rcases Effect.mem_andThen_events he with h | h
      · exact hversion _ _ _ _ _ e h
      · exact ih _ _ e h
  induction crds generalizing fs with
  | nil => simp [crdsV1beta1, Effect.skip]
  | cons c cs ih =>
    intro e he
    rcases Effect.mem_andThen_events he with h | h
    · exact hversions _ _ _ _ _ e h
    · exact ih _ e h

/-- The calls of one `writeV1`, whatever fails: a prefix of make the directory, serialize the
patched schema, print the notice, write the file. -/
theorem events_writeV1 (env : Env) (schemaDir : String) (t : JSONSchemaProps)
    (kind group name : String) (schema : JSONSchemaProps) (fs : FS) :
    (writeV1 env schemaDir t kind group name schema fs).events = [] ∨
    ∃ schema', patchV1 t schema = some schema' ∧
      ((writeV1 env schemaDir t kind group name schema fs).events =
          [.mkdirAll (pathJoin [schemaDir, group, name])] ∨
        (writeV1 env schemaDir t kind group name schema fs).events =
          [.mkdirAll (pathJoin [schemaDir, group, name]), .marshal schema'] ∨
        ∃ data, env.marshal schema' = .ok data ∧
          (writeV1 env schemaDir t kind group name schema fs).events =
            [.mkdirAll (pathJoin [schemaDir, group, name]), .marshal schema',
              .stdout ("Writing schema for " ++ kind ++ " version " ++ name ++ " of group " ++
                group ++ " to " ++
                pathJoin [pathJoin [schemaDir, group, name], env.toLower kind ++ ".json"] ++
                "\n"),
              .writeFile
                (pathJoin [pathJoin [schemaDir, group, name], env.toLower kind ++ ".json"])
                data]) := by
  unfold writeV1
  simp only
  split
  · exact Or.inl rfl
  · next schema' hp =>
    refine Or.inr ⟨schema', hp, ?_⟩
    split
    · exact Or.inl rfl
    · split
      · exact Or.inr (Or.inl rfl)
      · next data hm =>
        refine Or.inr (Or.inr ⟨data, hm, ?_⟩)
        split <;> rfl

theorem writeNotice_ne (a b c d : String) :
    "Writing schema for " ++ a ++ " version " ++ b ++ " of group " ++ c ++ " to " ++ d ++ "\n"
      ≠ fallbackNotice := by
  intro h
  have h' := congrArg (fun s : String => s.data.head?) h
  simp [fallbackNotice, String.data_append] at h'

theorem skipNotice_ne (a b c : String) :
    a ++ " version " ++ b ++ " of group " ++ c ++
      " does not contain a schema and will be skipped.\n" ≠ fallbackNotice := by
  intro h
  have h' := congrArg (fun s : String => s.data.reverse.take 3) h
  simp [fallbackNotice, String.data_append] at h'

theorem fromLoop_writeV1 (env : Env) (schemaDir : String) (t : JSONSchemaProps)
    (kind group name : String) (schema : JSONSchemaProps) (fs : FS) :
    ∀ e ∈ (writeV1 env schemaDir t kind group name schema fs).events, e.fromLoop := by
  intro e he
  rcases events_writeV1 env schemaDir t kind group name schema fs with h | ⟨s', _, h | h | ⟨d, _, h⟩⟩
  · rw [h] at he; simp at he
  · rw [h] at he; simp at he; subst he; trivial
  · rw [h] at he; simp at he
    rcases he with rfl | rfl <;> trivial
  · rw [h] at he; simp at he
    rcases he with rfl | rfl | rfl | rfl
    · trivial
    · trivial
    · exact writeNotice_ne _ _ _ _
    · trivial

theorem countP_eq_zero_of_fromLoop {events : List Event} (h : ∀ e ∈ events, e.fromLoop) :
    events.countP Event.isListV1 = 0 ∧ events.countP Event.isListV1beta1 = 0 ∧
      events.countP (Event.isStdout fallbackNotice) = 0 := by
  refine ⟨?_, ?_, ?_⟩ <;>
  · rw [List.countP_eq_zero]
    intro e he
    have := h e he
    cases e <;> simp_all [Event.fromLoop, Event.isListV1, Event.isListV1beta1, Event.isStdout]

theorem fromLoop_stableBranch (env : Env) (schemaDir : String)
    (crds : List apiextensionsv1.CustomResourceDefinition) (fs : FS) :
    ∀ e ∈ (stableBranch env schemaDir crds fs).events, e.fromLoop := by
  unfold stableBranch
  split
  · simp
  · exact forall_events_crdsV1 env schemaDir _ (fromLoop_writeV1 env schemaDir _) _ _

theorem fromLoop_crdsV1beta1 (env : Env) (schemaDir : String) (t : JSONSchemaProps)
    (crds : List apiextensionsv1beta1.CustomResourceDefinition) (fs : FS) :
    ∀ e ∈ (crdsV1beta1 env schemaDir t crds fs).events, e.fromLoop :=
  forall_events_crdsV1beta1 env schemaDir t (fromLoop_writeV1 env schemaDir t)
    (fun a b c => skipNotice_ne a b c) crds fs

theorem Pull_eq_of_client {env : Env} {homeDir : String} {cs : Clientset} (fs : FS)
    (hu : env.userCurrent = .ok homeDir) (hc : env.clientConfig = .ok ())
    (hn : env.newForConfig = .ok cs) :
    Pull env fs =
      match cs.listV1 with
      | .error err =>
        if !err.notFound then
          ⟨fs, [.listV1], some (.error
            ("crdClientset.ApiextensionsV1().CustomResourceDefinitions().List(): " ++
              err.msg))⟩
        else
          Effect.andThen ⟨fs, [.listV1, .stdout fallbackNotice], none⟩
            (legacyBranch env (pathJoin [homeDir, ".ytt-lint", "schema", "k8s"]) cs)
      | .ok crds =>
        Effect.andThen ⟨fs, [.listV1], none⟩
          (stableBranch env (pathJoin [homeDir, ".ytt-lint", "schema", "k8s"]) crds) := by
  unfold Pull
  simp only [hu, hc, hn]

theorem mem_marshalled {s : JSONSchemaProps} {events : List Event} :
    s ∈ marshalled events ↔ Event.marshal s ∈ events := by
  induction events with
  | nil => simp [marshalled]
  | cons e es ih => cases e <;> simp [marshalled, ih]

theorem mem_madeDirs {d : String} {events : List Event} :
    d ∈ madeDirs events ↔ Event.mkdirAll d ∈ events := by
  induction events with
  | nil => simp [madeDirs]
  | cons e es ih => cases e <;> simp [madeDirs, ih]

theorem mem_written {f : String × String} {events : List Event} :
    f ∈ written events ↔ Event.writeFile f.1 f.2 ∈ events := by
  induction events with
  | nil => simp [written]
  | cons e es ih =>
    obtain ⟨n, d⟩ := f
    cases e <;> simp [written, ih]

/-! ## `path.Clean` and `path.Join` on plain names -/

theorem cleaned_nil (rooted : Bool) : Cleaned rooted [] :=
  ⟨0, [], rfl, by simp, fun _ => rfl⟩

theorem cleaned_append_plain {rooted : Bool} {out : List (List Char)} {e : List Char}
    (h : Cleaned rooted out) (he : PlainElem e) : Cleaned rooted (out ++ [e]) := by
  obtain ⟨n, rest, rfl, hrest, hn⟩ := h
  refine ⟨n, rest ++ [e], by simp, ?_, hn⟩
  intro x hx
  rcases List.mem_append.mp hx with hx | hx
  · exact hrest x hx
  · simp at hx; subst hx; exact he

theorem cleanStep_plain (rooted : Bool) (out : List (List Char)) {e : List Char}
    (he : PlainElem e) : cleanStep rooted out e = out ++ [e] := by
  obtain ⟨h1, _, h3, h4⟩ := he
  simp [cleanStep, h1, h3, h4]

theorem cleaned_cleanStep {rooted : Bool} {out : List (List Char)} {e : List Char}
    (h : Cleaned rooted out) (he : '/' ∉ e) : Cleaned rooted (cleanStep rooted out e) := by
  by_cases h1 : e = [] ∨ e = ['.']
  · simp only [cleanStep, h1, if_true]
    exact h
  · by_cases h2 : e = ['.', '.']
    · subst h2
      obtain ⟨n, rest, rfl, hrest, hn⟩ := h
      simp only [cleanStep, h1, if_false, if_true]
      rcases List.eq_nil_or_concat rest with hr | ⟨rest', last, hr⟩
      · subst hr
        simp only [List.append_nil]
        cases n with
        | zero =>
          simp only [List.replicate_zero, List.getLast?_nil]
          cases rooted
          · exact ⟨1, [], by simp, by simp, by simp⟩
          · exact cleaned_nil _
        | succ n =>
          have hne : rooted = false := by
            cases rooted
            · rfl
            · exact absurd (hn rfl) (by simp)
          have hl : (List.replicate (n + 1) ['.', '.']).getLast? = some ['.', '.'] := by
            rw [List.replicate_succ', List.getLast?_append]
            simp
          simp only [hl, if_true]
          refine ⟨n + 2, [], ?_, by simp, by simp [hne]⟩
          rw [List.append_nil, ← List.replicate_succ']
      · rw [List.concat_eq_append] at hr
        subst hr
        have hlast : PlainElem last := hrest last (by simp)
        have hl : (List.replicate n ['.', '.'] ++ (rest' ++ [last])).getLast? = some last := by
          rw [← List.append_assoc, List.getLast?_append]
          simp
        simp only [hl, hlast.2.2.2, if_false]
        refine ⟨n, rest', ?_, fun x hx => hrest x (by simp [hx]), hn⟩
        rw [← List.append_assoc, List.dropLast_concat]
    · simp only [cleanStep, h1, h2, if_false]
      push_neg at h1
      exact cleaned_append_plain h ⟨h1.1, he, h1.2, h2⟩

theorem cleaned_foldl {rooted : Bool} {out : List (List Char)} (h : Cleaned rooted out)
    (elems : List (List Char)) (he : ∀ e ∈ elems, '/' ∉ e) :
    Cleaned rooted (elems.foldl (cleanStep rooted) out) := by
  induction elems generalizing out with
  | nil => exact h
  | cons e es ih =>
    simp only [List.foldl_cons]
    exact ih (cleaned_cleanStep h (he e (by simp))) (fun x hx => he x (by simp [hx]))

theorem not_mem_of_mem_splitOn (sep : Char) (xs : List Char) :
    ∀ l ∈ xs.splitOn sep, sep ∉ l := by
  induction xs with
  | nil => simp
  | cons x xs ih =>
    intro l hl
    simp only [List.splitOn, List.splitOnP_cons] at hl ih
    split_ifs at hl with hx
    · simp only [List.mem_cons] at hl
      rcases hl with rfl | hl
      · simp
      · exact ih l hl
    · cases hsp : List.splitOnP (fun x => x == sep) xs with
      | nil => simp [hsp] at hl
      | cons a as =>
        rw [hsp] at hl ih
        simp only [List.modifyHead, List.mem_cons] at hl
        rcases hl with rfl | hl
        · intro hmem
          simp only [List.mem_cons] at hmem
          rcases hmem with rfl | hmem
          · simp at hx
          · exact ih a (by simp) hmem
        · exact ih l (by simp [hl])

/-- The elements of a cleaned stack are `..` or plain. -/
theorem cleaned_mem {rooted : Bool} {out : List (List Char)} (h : Cleaned rooted out)
    {e : List Char} (he : e ∈ out) : e = ['.', '.'] ∨ PlainElem e := by
  obtain ⟨n, rest, rfl, hrest, _⟩ := h
  rcases List.mem_append.mp he with he | he
  · exact Or.inl (List.eq_of_mem_replicate he)
  · exact Or.inr (hrest e he)

/-- Cleaning a cleaned stack again leaves it as it is. -/
theorem cleaned_foldl_eq {rooted : Bool} (xs acc : List (List Char))
    (h : Cleaned rooted (acc ++ xs)) : xs.foldl (cleanStep rooted) acc = acc ++ xs := by
  induction xs generalizing acc with
  | nil => simp
  | cons x xs ih =>
    have hstep : cleanStep rooted acc x = acc ++ [x] := by
      rcases cleaned_mem h (e := x) (by simp) with hx | hx
      · subst hx
        obtain ⟨n, rest, heq, hrest, hn⟩ := h
        have hacc : ∀ y ∈ acc, y = ['.', '.'] := by
          rcases List.append_eq_append_iff.mp heq with ⟨a', h1, h2⟩ | ⟨c', h1, h2⟩
          · intro y hy
            exact List.eq_of_mem_replicate (h1 ▸ List.mem_append_left a' hy)
          · have : PlainElem ['.', '.'] := hrest _ (by rw [h2]; simp)
            exact absurd rfl this.2.2.2
        have hroot : rooted = false := by
          cases rooted
          · rfl
          · have hn0 := hn rfl
            subst hn0
            simp only [List.replicate_zero, List.nil_append] at heq
            have : PlainElem ['.', '.'] := hrest _ (by rw [← heq]; simp)
            exact absurd rfl this.2.2.2
        subst hroot
        rcases List.eq_nil_or_concat acc with ha | ⟨acc', last, ha⟩
        · subst ha
          simp [cleanStep]
        · rw [List.concat_eq_append] at ha
          subst ha
          have hlast : last = ['.', '.'] := hacc last (by simp)
          subst hlast
          simp [cleanStep]
      · exact cleanStep_plain rooted acc hx
    simp only [List.foldl_cons, hstep]
    rw [ih (acc ++ [x]) (by simpa using h)]
    simp

theorem pathClean_eq_renderPath (p : String) :
    pathClean p = String.mk (renderPath (decide (p.data.head? = some '/'))
      ((p.data.splitOn '/').foldl (cleanStep (decide (p.data.head? = some '/'))) [])) := by
  unfold pathClean renderPath
  by_cases hp : p = ""
  · subst hp
    decide
  · have hdot : ("." : String) = String.mk ['.'] := rfl
    by_cases hr : p.data.head? = some '/'
    · simp [hp, hr]
    · by_cases ho : (p.data.splitOn '/').foldl (cleanStep false) [] = []
      · simp [hp, hr, ho, hdot]
      · simp [hp, hr, ho]

theorem intercalate_append_singleton (out : List (List Char)) (hout : out ≠ [])
    (e : List Char) :
    List.intercalate ['/'] (out ++ [e]) = List.intercalate ['/'] out ++ '/' :: e := by
  induction out with
  | nil => exact absurd rfl hout
  | cons a as ih =>
    cases as with
    | nil => simp [List.intercalate, List.intersperse]
    | cons b bs =>
      have := ih (by simp)
      simp only [List.intercalate, List.cons_append, List.intersperse_cons_cons,
        List.flatten_cons, List.append_assoc] at this ⊢
      rw [this]

theorem renderPath_append_singleton (rooted : Bool) (out : List (List Char)) (hout : out ≠ [])
    (e : List Char) :
    renderPath rooted (out ++ [e]) = renderPath rooted out ++ '/' :: e := by
  unfold renderPath
  cases rooted
  · simp [hout, intercalate_append_singleton out hout e]
  · simp [intercalate_append_singleton out hout e]

theorem head?_intercalate_ne_slash {out : List (List Char)} (h : Cleaned false out)
    (hout : out ≠ []) :
    List.intercalate ['/'] out ≠ [] ∧ (List.intercalate ['/'] out).head? ≠ some '/' := by
  cases out with
  | nil => exact absurd rfl hout
  | cons a as =>
    have ha : a ≠ [] ∧ a.head? ≠ some '/' := by
      rcases cleaned_mem h (e := a) (by simp) with ha | ha
      · subst ha; simp
      · refine ⟨ha.1, ?_⟩
        intro hh
        cases a with
        | nil => exact ha.1 rfl
        | cons c cs =>
          simp at hh
          subst hh
          exact ha.2.1 (by simp)
    cases a with
    | nil => exact absurd rfl ha.1
    | cons c cs =>
      cases as with
      | nil => simpa [List.intercalate, List.intersperse] using ha.2
      | cons b bs => simpa [List.intercalate, List.intersperse] using ha.2

/-- The rendering of a cleaned stack is a fixed point of `path.Clean`. -/
theorem pathClean_renderPath {rooted : Bool} {out : List (List Char)}
    (h : Cleaned rooted out) :
    pathClean (String.mk (renderPath rooted out)) = String.mk (renderPath rooted out) := by
  have hslash : ∀ l ∈ out, '/' ∉ l := by
    intro l hl
    rcases cleaned_mem h hl with rfl | hp
    · simp
    · exact hp.2.1
  rw [pathClean_eq_renderPath]
  cases rooted with
  | true =>
    have hd : (String.mk (renderPath true out)).data = '/' :: List.intercalate ['/'] out := by
      simp [renderPath]
    rw [hd]
    simp only [List.head?_cons, decide_True]
    congr 2
    by_cases hout : out = []
    · subst hout
      simp [List.intercalate, List.splitOn, cleanStep]
    · have hs : ('/' :: List.intercalate ['/'] out).splitOn '/' = [] :: out := by
        have := List.splitOn_intercalate out '/' hslash hout
        simp only [List.splitOn] at this ⊢
        rw [List.splitOnP_cons]
        simp [this]
      rw [hs]
      simp only [List.foldl_cons]
      have hc : cleanStep true [] [] = [] := by simp [cleanStep]
      rw [hc]
      simpa using cleaned_foldl_eq out [] (by simpa using h)
  | false =>
    by_cases hout : out = []
    · subst hout
      decide
    · have hne := head?_intercalate_ne_slash h hout
      have hd : (String.mk (renderPath false out)).data = List.intercalate ['/'] out := by
        simp [renderPath, hout]
      rw [hd]
      have hdec : decide ((List.intercalate ['/'] out).head? = some '/') = false := by
        simpa using hne.2
      rw [hdec, List.splitOn_intercalate out '/' hslash hout]
      congr 2
      simpa using cleaned_foldl_eq out [] (by simpa using h)

theorem IsCleanPath.ne_empty {p : String} (h : IsCleanPath p) : p ≠ "" := by
  obtain ⟨rooted, out, hc, hout, rfl⟩ := h
  intro hp
  have hd := congrArg String.data hp
  cases rooted
  · have := (head?_intercalate_ne_slash hc hout).1
    simp [renderPath, hout] at hd
    exact this hd
  · simp [renderPath] at hd

/-- Appending a plain element to a clean path with a slash gives a clean path. -/
theorem IsCleanPath.append {p : String} (h : IsCleanPath p) {g : String}
    (hg : PlainElem g.data) :
    IsCleanPath (p ++ "/" ++ g) ∧ pathClean (p ++ "/" ++ g) = p ++ "/" ++ g := by
  obtain ⟨rooted, out, hc, hout, rfl⟩ := h
  have heq : String.mk (renderPath rooted out) ++ "/" ++ g =
      String.mk (renderPath rooted (out ++ [g.data])) := by
    apply String.ext
    simp [String.data_append, renderPath_append_singleton rooted out hout]
  have hc' := cleaned_append_plain hc hg
  rw [heq]
  exact ⟨⟨rooted, out ++ [g.data], hc', by simp, rfl⟩, pathClean_renderPath hc'⟩

theorem pathJoin_pair {p : String} (h : IsCleanPath p) {g : String} (hg : PlainElem g.data) :
    pathJoin [p, g] = p ++ "/" ++ g := by
  have hp := h.ne_empty
  have : pathJoin [p, g] = pathClean (p ++ "/" ++ g) := by
    simp [pathJoin, List.dropWhile, hp, String.intercalate, String.intercalate.go]
  rw [this, (h.append hg).2]

theorem pathJoin_triple {p : String} (h : IsCleanPath p) {g v : String}
    (hg : PlainElem g.data) (hv : PlainElem v.data) :
    pathJoin [p, g, v] = p ++ "/" ++ g ++ "/" ++ v := by
  have hp := h.ne_empty
  have : pathJoin [p, g, v] = pathClean (p ++ "/" ++ g ++ "/" ++ v) := by
    simp [pathJoin, List.dropWhile, hp, String.intercalate, String.intercalate.go]
  rw [this, ((h.append hg).1.append hv).2]

theorem splitOn_append_sep (xs ys : List Char) :
    (xs ++ '/' :: ys).splitOn '/' = xs.splitOn '/' ++ ys.splitOn '/' := by
  have hx := List.intercalate_splitOn xs '/'
  have hy := List.intercalate_splitOn ys '/'
  have hxne : xs.splitOn '/' ≠ [] := List.splitOnP_ne_nil _ _
  have hyne : ys.splitOn '/' ≠ [] := List.splitOnP_ne_nil _ _
  have hcat : ∀ (A B : List (List Char)), A ≠ [] → B ≠ [] →
      List.intercalate ['/'] (A ++ B) =
        List.intercalate ['/'] A ++ '/' :: List.intercalate ['/'] B := by
    intro A B hA hB
    induction A with
    | nil => exact absurd rfl hA
    | cons a as ih =>
      cases as with
      | nil =>
        cases B with
        | nil => exact absurd rfl hB
        | cons b bs => simp [List.intercalate, List.intersperse]
      | cons a' as' =>
        have := ih (by simp)
        simp only [List.intercalate, List.cons_append, List.intersperse_cons_cons,
          List.flatten_cons, List.append_assoc] at this ⊢
        rw [this]
  have : xs ++ '/' :: ys = List.intercalate ['/'] (xs.splitOn '/' ++ ys.splitOn '/') := by
    rw [hcat _ _ hxne hyne, hx, hy]
  rw [this]
  apply List.splitOn_intercalate
  · intro l hl
    rcases List.mem_append.mp hl with hl | hl
    · exact not_mem_of_mem_splitOn '/' xs l hl
    · exact not_mem_of_mem_splitOn '/' ys l hl
  · simp [hxne]

/-- The schema directory of `Pull` is a clean path, whatever the home directory. -/
theorem isCleanPath_schemaDir (homeDir : String) :
    IsCleanPath (pathJoin [homeDir, ".ytt-lint", "schema", "k8s"]) := by
  have hplain : PlainElem ".ytt-lint".data ∧ PlainElem "schema".data ∧ PlainElem "k8s".data := by
    refine ⟨⟨?_, ?_, ?_, ?_⟩, ⟨?_, ?_, ?_, ?_⟩, ⟨?_, ?_, ?_, ?_⟩⟩ <;> decide
  by_cases hh : homeDir = ""
  · subst hh
    refine ⟨false, [".ytt-lint".data, "schema".data, "k8s".data], ?_, by simp, by decide⟩
    exact cleaned_append_plain (cleaned_append_plain (cleaned_append_plain (cleaned_nil _)
      hplain.1) hplain.2.1) hplain.2.2
  · have hj : pathJoin [homeDir, ".ytt-lint", "schema", "k8s"] =
        pathClean (homeDir ++ "/.ytt-lint/schema/k8s") := by
      simp only [pathJoin, List.dropWhile, hh, decide_False]
      congr 1
      apply String.ext
      simp [String.intercalate, String.intercalate.go, String.data_append]
    rw [hj, pathClean_eq_renderPath]
    have hd : (homeDir ++ "/.ytt-lint/schema/k8s").data =
        homeDir.data ++ '/' :: ".ytt-lint/schema/k8s".data := by
      simp [String.data_append]
    have hs : ".ytt-lint/schema/k8s".data.splitOn '/' =
        [".ytt-lint".data, "schema".data, "k8s".data] := by decide
    rw [hd, splitOn_append_sep, hs, List.foldl_append]
    generalize hr : decide ((homeDir.data ++ '/' :: ".ytt-lint/schema/k8s".data).head? =
      some '/') = rooted
    have hc : Cleaned rooted ((homeDir.data.splitOn '/').foldl (cleanStep rooted) []) :=
      cleaned_foldl (cleaned_nil _) _ (not_mem_of_mem_splitOn '/' _)
    generalize (homeDir.data.splitOn '/').foldl (cleanStep rooted) [] = out at hc
    simp only [List.foldl_cons, List.foldl_nil, cleanStep_plain _ _ hplain.1,
      cleanStep_plain _ _ hplain.2.1, cleanStep_plain _ _ hplain.2.2]
    exact ⟨rooted, _, cleaned_append_plain (cleaned_append_plain (cleaned_append_plain hc
      hplain.1) hplain.2.1) hplain.2.2, by simp, rfl⟩

theorem PlainName.plainElem {s : String} (h : PlainName s) : PlainElem s.data := by
  obtain ⟨h1, h2, h3, h4⟩ := h
  refine ⟨?_, h2, ?_, ?_⟩
  · intro hd
    exact h1 (String.ext hd)
  · intro hd
    exact h3 (String.ext hd)
  · intro hd
    exact h4 (String.ext hd)

theorem plainElem_json {s : String} (h : '/' ∉ s.data) : PlainElem (s ++ ".json").data := by
  have hd : (s ++ ".json").data = s.data ++ ['.', 'j', 's', 'o', 'n'] := by
    simp [String.data_append]
  rw [hd]
  refine ⟨by simp, ?_, ?_, ?_⟩
  · intro hm
    rcases List.mem_append.mp hm with hm | hm
    · exact h hm
    · simp at hm
  · intro he
    have := congrArg List.length he
    simp at this
  · intro he
    have := congrArg List.length he
    simp at this


/-- Every call of `Pull` is a list call, a printed line, or a call of some `writeV1` run
under the schema directory and the parsed template. -/
theorem mem_events_Pull {env : Env} {fs : FS} {e : Event} (h : e ∈ (Pull env fs).events) :
    e = .listV1 ∨ e = .listV1beta1 ∨ (∃ text, e = .stdout text) ∨
    ∃ homeDir t kind group name schema fs', env.userCurrent = .ok homeDir ∧
      env.unmarshalTemplate = .ok t ∧
      e ∈ (writeV1 env (pathJoin [homeDir, ".ytt-lint", "schema", "k8s"]) t kind group name
        schema fs').events := by
  cases hu : env.userCurrent with
  | error err => simp [Pull, hu] at h
  | ok homeDir =>
    cases hc : env.clientConfig with
    | error err => simp [Pull, hu, hc] at h
    | ok u =>
      cases hn : env.newForConfig with
      | error err => simp [Pull, hu, hc, hn] at h
      | ok cs =>
        rw [Pull_eq_of_client fs hu hc hn] at h
        have hloop : ∀ t, (∀ kind group name schema fs',
            ∀ e ∈ (writeV1 env (pathJoin [homeDir, ".ytt-lint", "schema", "k8s"]) t kind group
              name schema fs').events,
            (∃ text, e = .stdout text) ∨
            ∃ kind group name schema fs',
              e ∈ (writeV1 env (pathJoin [homeDir, ".ytt-lint", "schema", "k8s"]) t kind group
                name schema fs').events) :=
          fun t kind group name schema fs' e he =>
            Or.inr ⟨kind, group, name, schema, fs', he⟩
        cases hl : cs.listV1 with
        | ok crds =>
          simp only [hl] at h
          rcases Effect.mem_andThen_events h with h | h
          · simp at h; exact Or.inl h
          · unfold stableBranch at h
            cases ht : env.unmarshalTemplate with
            | error err => simp [ht] at h
            | ok t =>
              simp only [ht] at h
              rcases forall_events_crdsV1 env _ t (hloop t) crds fs e h with
                h' | ⟨kind, group, name, schema, fs', h'⟩
              · exact Or.inr (Or.inr (Or.inl h'))
              · exact Or.inr (Or.inr (Or.inr
                  ⟨homeDir, t, kind, group, name, schema, fs', rfl, rfl, h'⟩))
        | error err =>
          simp only [hl] at h
          split_ifs at h
          · simp at h; exact Or.inl h
          · rcases Effect.mem_andThen_events h with h | h
            · simp at h
              rcases h with h | h
              · exact Or.inl h
              · exact Or.inr (Or.inr (Or.inl ⟨_, h⟩))
            · unfold legacyBranch at h
              cases hb : cs.listV1beta1 with
              | error err' => simp [hb] at h; exact Or.inr (Or.inl h)
              | ok crds =>
                cases ht : env.unmarshalTemplate with
                | error err' => simp [hb, ht] at h; exact Or.inr (Or.inl h)
                | ok t =>
                  simp only [hb, ht] at h
                  rcases Effect.mem_andThen_events h with h | h
                  · simp at h; exact Or.inr (Or.inl h)
                  · rcases forall_events_crdsV1beta1 env _ t (hloop t)
                      (fun _ _ _ => Or.inl ⟨_, rfl⟩) crds fs e h with
                      h' | ⟨kind, group, name, schema, fs', h'⟩
                    · exact Or.inr (Or.inr (Or.inl h'))
                    · exact Or.inr (Or.inr (Or.inr
                        ⟨homeDir, t, kind, group, name, schema, fs', rfl, rfl, h'⟩))

/-- The schema one `writeV1` serializes is the patched one. -/
theorem marshalled_writeV1 {env : Env} {schemaDir : String} {t : JSONSchemaProps}
    {kind group name : String} {schema : JSONSchemaProps} {fs : FS} {s' : JSONSchemaProps}
    (h : Event.marshal s' ∈ (writeV1 env schemaDir t kind group name schema fs).events) :
    patchV1 t schema = some s' := by
  rcases events_writeV1 env schemaDir t kind group name schema fs with
    he | ⟨s'', hp, he | he | ⟨d, _, he⟩⟩
  · rw [he] at h; simp at h
  · rw [he] at h; simp at h
  · rw [he] at h; simp at h; rw [hp, h]
  · rw [he] at h; simp at h; rw [hp, h]

/-! ## What one iteration and one run call -/

theorem madeDirs_writeV1 (env : Env) (schemaDir : String) (t : JSONSchemaProps)
    (kind group name : String) (schema : JSONSchemaProps) (fs : FS) :
    madeDirs (writeV1 env schemaDir t kind group name schema fs).events =
      match patchV1 t schema with
      | none => []
      | some _ => [specDirname schemaDir group name] := by
  unfold writeV1 specDirname
  cases hp : patchV1 t schema with
  | none => simp [madeDirs]
  | some s' =>
    simp only
    cases hm : env.mkdirAllErr fs (pathJoin [schemaDir, group, name]) with
    | some err => simp [madeDirs]
    | none =>
      cases hj : env.marshal s' with
      | error err => simp [madeDirs]
      | ok data =>
        simp only
        cases hw : env.writeFileErr (fs.mkdirAll (pathJoin [schemaDir, group, name]))
          (pathJoin [pathJoin [schemaDir, group, name], env.toLower kind ++ ".json"]) data <;>
        simp [madeDirs]

theorem written_writeV1 (env : Env) (schemaDir : String) (t : JSONSchemaProps)
    (kind group name : String) (schema : JSONSchemaProps) (fs : FS) :
    written (writeV1 env schemaDir t kind group name schema fs).events =
      match patchV1 t schema with
      | none => []
      | some s' =>
        match env.mkdirAllErr fs (specDirname schemaDir group name) with
        | some _ => []
        | none =>
          match env.marshal s' with
          | .error _ => []
          | .ok data => [(specFilename env.toLower schemaDir group name kind, data)] := by
  unfold writeV1 specFilename specDirname
  cases hp : patchV1 t schema with
  | none => simp [written]
  | some s' =>
    simp only
    cases hm : env.mkdirAllErr fs (pathJoin [schemaDir, group, name]) with
    | some err => simp [written]
    | none =>
      cases hj : env.marshal s' with
      | error err => simp [written]
      | ok data =>
        simp only
        cases hw : env.writeFileErr (fs.mkdirAll (pathJoin [schemaDir, group, name]))
          (pathJoin [pathJoin [schemaDir, group, name], env.toLower kind ++ ".json"]) data <;>
        simp [written]

/-- A `writeV1` that lets control go on has patched the schema. -/
theorem patchV1_isSome_of_exit_none {env : Env} {schemaDir : String} {t : JSONSchemaProps}
    {kind group name : String} {schema : JSONSchemaProps} {fs : FS}
    (h : (writeV1 env schemaDir t kind group name schema fs).exit = none) :
    ∃ s' data, patchV1 t schema = some s' ∧
      env.mkdirAllErr fs (specDirname schemaDir group name) = none ∧
      env.marshal s' = .ok data := by
  unfold writeV1 at h
  unfold specDirname
  cases hp : patchV1 t schema with
  | none => simp [hp] at h
  | some s' =>
    simp only [hp] at h
    cases hm : env.mkdirAllErr fs (pathJoin [schemaDir, group, name]) with
    | some err => simp [hm] at h
    | none =>
      simp only [hm] at h
      cases hj : env.marshal s' with
      | error err => simp [hj] at h
      | ok data => exact ⟨s', data, rfl, rfl, hj⟩

theorem madeDirs_append (a b : List Event) : madeDirs (a ++ b) = madeDirs a ++ madeDirs b := by
  induction a with
  | nil => rfl
  | cons e es ih => cases e <;> simp [madeDirs, ih]

theorem written_append (a b : List Event) : written (a ++ b) = written a ++ written b := by
  induction a with
  | nil => rfl
  | cons e es ih => cases e <;> simp [written, ih]

theorem Effect.andThen_exit_none {a : Effect} {b : FS → Effect}
    (h : (a.andThen b).exit = none) :
    a.exit = none ∧ (b a.fs).exit = none ∧
      (a.andThen b).events = a.events ++ (b a.fs).events := by
  unfold Effect.andThen at h ⊢
  cases ha : a.exit with
  | some o => simp [ha] at h
  | none =>
    simpa [ha] using h

/-- Every call of the stable loops is made by the iteration of some CRD of the list and some
version of that CRD. -/
theorem mem_events_crdsV1 {env : Env} {schemaDir : String} {t : JSONSchemaProps}
    {crds : List apiextensionsv1.CustomResourceDefinition} {fs : FS} {e : Event}
    (h : e ∈ (crdsV1 env schemaDir t crds fs).events) :
    ∃ crd ∈ crds, ∃ version ∈ crd.Spec.Versions, ∃ fs',
      e ∈ (versionV1 env schemaDir t crd.Spec.Names.Kind crd.Spec.Group version fs').events := by
  have hversions : ∀ kind group (versions : List CustomResourceDefinitionVersion) fs,
      e ∈ (versionsV1 env schemaDir t kind group versions fs).events →
      ∃ version ∈ versions, ∃ fs',
        e ∈ (versionV1 env schemaDir t kind group version fs').events := by
    intro kind group versions
    induction versions with
    | nil => intro fs he; simp [versionsV1, Effect.skip] at he
    | cons v vs ih =>
      intro fs he
      rcases Effect.mem_andThen_events he with h | h
      · exact ⟨v, by simp, fs, h⟩
      · obtain ⟨v', hv', fs', h'⟩ := ih _ h
        exact ⟨v', by simp [hv'], fs', h'⟩
  induction crds generalizing fs with
  | nil => simp [crdsV1, Effect.skip] at h
  | cons c cs ih =>
    rcases Effect.mem_andThen_events h with h | h
    · obtain ⟨v, hv, fs', h'⟩ := hversions _ _ _ _ h
      exact ⟨c, by simp, v, hv, fs', h'⟩
    · obtain ⟨c', hc', v, hv, fs', h'⟩ := ih h
      exact ⟨c', by simp [hc'], v, hv, fs', h'⟩

/-- Every call of the legacy loops is made by the iteration of some CRD of the list and some
version of that CRD. -/
theorem mem_events_crdsV1beta1 {env : Env} {schemaDir : String} {t : JSONSchemaProps}
    {crds : List apiextensionsv1beta1.CustomResourceDefinition} {fs : FS} {e : Event}
    (h : e ∈ (crdsV1beta1 env schemaDir t crds fs).events) :
    ∃ crd ∈ crds, ∃ version ∈ crd.Spec.Versions, ∃ validation fs',
      e ∈ (versionV1beta1 env schemaDir t crd.Spec.Names.Kind crd.Spec.Group validation
        version fs').1.events := by
  have hversions : ∀ kind group (versions : List CustomResourceDefinitionVersion) validation fs,
      e ∈ (versionsV1beta1 env schemaDir t kind group validation versions fs).events →
      ∃ version ∈ versions, ∃ validation' fs',
        e ∈ (versionV1beta1 env schemaDir t kind group validation' version fs').1.events := by
    intro kind group versions
    induction versions with
    | nil => intro validation fs he; simp [versionsV1beta1, Effect.skip] at he
    | cons v vs ih =>
      intro validation fs he
      rcases Effect.mem_andThen_events he with h | h
      · exact ⟨v, by simp, validation, fs, h⟩
      · obtain ⟨v', hv', val', fs', h'⟩ := ih _ _ h
        exact ⟨v', by simp [hv'], val', fs', h'⟩
  induction crds generalizing fs with
  | nil => simp [crdsV1beta1, Effect.skip] at h
  | cons c cs ih =>
    rcases Effect.mem_andThen_events h with h | h
    · obtain ⟨v, hv, val', fs', h'⟩ := hversions _ _ _ _ _ h
      exact ⟨c, by simp, v, hv, val', fs', h'⟩
    · obtain ⟨c', hc', v, hv, val', fs', h'⟩ := ih h
      exact ⟨c', by simp [hc'], v, hv, val', fs', h'⟩

theorem calls_versionV1_of_exit_none {env : Env} {schemaDir : String} {t : JSONSchemaProps}
    {kind group : String} {version : CustomResourceDefinitionVersion} {fs : FS}
    (h : (versionV1 env schemaDir t kind group version fs).exit = none) :
    madeDirs (versionV1 env schemaDir t kind group version fs).events =
      ((embeddedSchema version.Schema).map fun _ =>
        specDirname schemaDir group version.Name).toList ∧
    (written (versionV1 env schemaDir t kind group version fs).events).map Prod.fst =
      ((embeddedSchema version.Schema).map fun _ =>
        specFilename env.toLower schemaDir group version.Name kind).toList := by
  unfold versionV1 at h ⊢
  cases hs : embeddedSchema version.Schema with
  | none => simp [Effect.skip, madeDirs, written]
  | some schema =>
    simp only [hs] at h ⊢
    obtain ⟨s', data, hp, hm, hj⟩ := patchV1_isSome_of_exit_none h
    rw [madeDirs_writeV1, written_writeV1]
    simp [hp, hm, hj]

theorem calls_versionsV1_of_exit_none {env : Env} {schemaDir : String} {t : JSONSchemaProps}
    {kind group : String} (versions : List CustomResourceDefinitionVersion) (fs : FS)
    (h : (versionsV1 env schemaDir t kind group versions fs).exit = none) :
    madeDirs (versionsV1 env schemaDir t kind group versions fs).events =
      versions.filterMap (fun v =>
        (embeddedSchema v.Schema).map fun _ => specDirname schemaDir group v.Name) ∧
    (written (versionsV1 env schemaDir t kind group versions fs).events).map Prod.fst =
      versions.filterMap (fun v =>
        (embeddedSchema v.Schema).map fun _ =>
          specFilename env.toLower schemaDir group v.Name kind) := by
  induction versions generalizing fs with
  | nil => simp [versionsV1, Effect.skip, madeDirs, written]
  | cons v vs ih =>
    unfold versionsV1 at h ⊢
    obtain ⟨h1, h2, he⟩ := Effect.andThen_exit_none h
    have hv := calls_versionV1_of_exit_none h1
    have hvs := ih _ h2
    rw [he, madeDirs_append, written_append, List.map_append, hv.1, hv.2, hvs.1, hvs.2]
    cases hs : embeddedSchema v.Schema <;> simp [List.filterMap_cons, hs]

theorem calls_crdsV1_of_exit_none {env : Env} {schemaDir : String} {t : JSONSchemaProps}
    (crds : List apiextensionsv1.CustomResourceDefinition) (fs : FS)
    (h : (crdsV1 env schemaDir t crds fs).exit = none) :
    madeDirs (crdsV1 env schemaDir t crds fs).events =
      (crds.map fun crd => crd.Spec.Versions.filterMap fun v =>
        (embeddedSchema v.Schema).map fun _ =>
          specDirname schemaDir crd.Spec.Group v.Name).flatten ∧
    (written (crdsV1 env schemaDir t crds fs).events).map Prod.fst =
      (crds.map fun crd => crd.Spec.Versions.filterMap fun v =>
        (embeddedSchema v.Schema).map fun _ =>
          specFilename env.toLower schemaDir crd.Spec.Group v.Name
            crd.Spec.Names.Kind).flatten := by
  induction crds generalizing fs with
  | nil => simp [crdsV1, Effect.skip, madeDirs, written]
  | cons c cs ih =>
    unfold crdsV1 at h ⊢
    obtain ⟨h1, h2, he⟩ := Effect.andThen_exit_none h
    have hv := calls_versionsV1_of_exit_none _ _ h1
    have hcs := ih _ h2
    rw [he, madeDirs_append, written_append, List.map_append, hv.1, hv.2, hcs.1, hcs.2]
    simp

/-- One iteration of the legacy inner loop: its calls are those of `writeV1` on the selected
schema, its own when it has one and the shared one otherwise. -/
theorem versionV1beta1_fst (env : Env) (schemaDir : String) (t : JSONSchemaProps)
    (kind group : String) (validation : Option CustomResourceValidation)
    (version : CustomResourceDefinitionVersion) (fs : FS) :
    (versionV1beta1 env schemaDir t kind group validation version fs).1 =
      match (embeddedSchema version.Schema).or (embeddedSchema validation) with
      | none =>
        ⟨fs, [.stdout (kind ++ " version " ++ version.Name ++ " of group " ++ group ++
          " does not contain a schema and will be skipped.\n")], none⟩
      | some schema => writeV1 env schemaDir t kind group version.Name schema fs := by
  unfold versionV1beta1
  cases h1 : embeddedSchema version.Schema with
  | some s => simp [Option.or, writeV1beta1_fst]
  | none =>
    cases h2 : embeddedSchema validation with
    | none => simp [Option.or]
    | some s => simp [Option.or, writeV1beta1_fst]

/-- An iteration leaves `crd.Spec.Validation` with a shared schema exactly when it found
one. -/
theorem versionV1beta1_snd_isSome (env : Env) (schemaDir : String) (t : JSONSchemaProps)
    (kind group : String) (validation : Option CustomResourceValidation)
    (version : CustomResourceDefinitionVersion) (fs : FS) :
    (embeddedSchema
      (versionV1beta1 env schemaDir t kind group validation version fs).2).isSome =
      (embeddedSchema validation).isSome := by
  unfold versionV1beta1
  cases h1 : embeddedSchema version.Schema with
  | some s => simp
  | none =>
    cases h2 : embeddedSchema validation with
    | none => simp [h2]
    | some s => simp [embeddedSchema]

theorem calls_versionV1beta1_of_exit_none {env : Env} {schemaDir : String}
    {t : JSONSchemaProps} {kind group : String} {validation : Option CustomResourceValidation}
    {version : CustomResourceDefinitionVersion} {fs : FS}
    (h : (versionV1beta1 env schemaDir t kind group validation version fs).1.exit = none) :
    madeDirs (versionV1beta1 env schemaDir t kind group validation version fs).1.events =
      (((embeddedSchema version.Schema).or (embeddedSchema validation)).map fun _ =>
        specDirname schemaDir group version.Name).toList ∧
    (written (versionV1beta1 env schemaDir t kind group validation version
        fs).1.events).map Prod.fst =
      (((embeddedSchema version.Schema).or (embeddedSchema validation)).map fun _ =>
        specFilename env.toLower schemaDir group version.Name kind).toList := by
  rw [versionV1beta1_fst] at h ⊢
  cases hs : (embeddedSchema version.Schema).or (embeddedSchema validation) with
  | none => simp [madeDirs, written]
  | some schema =>
    simp only [hs] at h ⊢
    obtain ⟨s', data, hp, hm, hj⟩ := patchV1_isSome_of_exit_none h
    rw [madeDirs_writeV1, written_writeV1]
    simp [hp, hm, hj]

theorem or_map_const_congr {α β : Type} (x y y' : Option α) (c : β)
    (h : y.isSome = y'.isSome) : (x.or y).map (fun _ => c) = (x.or y').map (fun _ => c) := by
  cases x <;> cases y <;> cases y' <;> simp_all [Option.or]

theorem calls_versionsV1beta1_of_exit_none {env : Env} {schemaDir : String}
    {t : JSONSchemaProps} {kind group : String}
    (versions : List CustomResourceDefinitionVersion)
    (validation : Option CustomResourceValidation) (fs : FS)
    (h : (versionsV1beta1 env schemaDir t kind group validation versions fs).exit = none) :
    madeDirs (versionsV1beta1 env schemaDir t kind group validation versions fs).events =
      versions.filterMap (fun v =>
        ((embeddedSchema v.Schema).or (embeddedSchema validation)).map fun _ =>
          specDirname schemaDir group v.Name) ∧
    (written (versionsV1beta1 env schemaDir t kind group validation versions
        fs).events).map Prod.fst =
      versions.filterMap (fun v =>
        ((embeddedSchema v.Schema).or (embeddedSchema validation)).map fun _ =>
          specFilename env.toLower schemaDir group v.Name kind) := by
  induction versions generalizing fs validation with
  | nil => simp [versionsV1beta1, Effect.skip, madeDirs, written]
  | cons v vs ih =>
    unfold versionsV1beta1 at h ⊢
    simp only at h ⊢
    obtain ⟨h1, h2, he⟩ := Effect.andThen_exit_none h
    have hv := calls_versionV1beta1_of_exit_none h1
    have hvs := ih _ _ h2
    have hsome := versionV1beta1_snd_isSome env schemaDir t kind group validation v fs
    rw [he, madeDirs_append, written_append, List.map_append, hv.1, hv.2, hvs.1, hvs.2]
    have e1 : ∀ v' : CustomResourceDefinitionVersion,
        ((embeddedSchema v'.Schema).or (embeddedSchema
          (versionV1beta1 env schemaDir t kind group validation v fs).2)).map
          (fun _ => specDirname schemaDir group v'.Name) =
        ((embeddedSchema v'.Schema).or (embeddedSchema validation)).map
          (fun _ => specDirname schemaDir group v'.Name) :=
      fun v' => or_map_const_congr _ _ _ _ hsome
    have e2 : ∀ v' : CustomResourceDefinitionVersion,
        ((embeddedSchema v'.Schema).or (embeddedSchema
          (versionV1beta1 env schemaDir t kind group validation v fs).2)).map
          (fun _ => specFilename env.toLower schemaDir group v'.Name kind) =
        ((embeddedSchema v'.Schema).or (embeddedSchema validation)).map
          (fun _ => specFilename env.toLower schemaDir group v'.Name kind) :=
      fun v' => or_map_const_congr _ _ _ _ hsome
    simp only [e1, e2]
    cases hs : (embeddedSchema v.Schema).or (embeddedSchema validation) <;>
      simp [List.filterMap_cons, hs]

theorem calls_crdsV1beta1_of_exit_none {env : Env} {schemaDir : String} {t : JSONSchemaProps}
    (crds : List apiextensionsv1beta1.CustomResourceDefinition) (fs : FS)
    (h : (crdsV1beta1 env schemaDir t crds fs).exit = none) :
    madeDirs (crdsV1beta1 env schemaDir t crds fs).events =
      (crds.map fun crd => crd.Spec.Versions.filterMap fun v =>
        ((embeddedSchema v.Schema).or (embeddedSchema crd.Spec.Validation)).map fun _ =>
          specDirname schemaDir crd.Spec.Group v.Name).flatten ∧
    (written (crdsV1beta1 env schemaDir t crds fs).events).map Prod.fst =
      (crds.map fun crd => crd.Spec.Versions.filterMap fun v =>
        ((embeddedSchema v.Schema).or (embeddedSchema crd.Spec.Validation)).map fun _ =>
          specFilename env.toLower schemaDir crd.Spec.Group v.Name
            crd.Spec.Names.Kind).flatten := by
  induction crds generalizing fs with
  | nil => simp [crdsV1beta1, Effect.skip, madeDirs, written]
  | cons c cs ih =>
    unfold crdsV1beta1 at h ⊢
    obtain ⟨h1, h2, he⟩ := Effect.andThen_exit_none h
    have hv := calls_versionsV1beta1_of_exit_none _ _ _ h1
    have hcs := ih _ h2
    rw [he, madeDirs_append, written_append, List.map_append, hv.1, hv.2, hcs.1, hcs.2]
    simp

/-- The run of `Pull` against a server with the stable API, once the client is built and the
template parsed: the stable list call, then the stable loops. -/
theorem Pull_stable {env : Env} {homeDir : String} {cs : Clientset} {t : JSONSchemaProps}
    {crds : List apiextensionsv1.CustomResourceDefinition} (fs : FS)
    (hu : env.userCurrent = .ok homeDir) (hc : env.clientConfig = .ok ())
    (hn : env.newForConfig = .ok cs) (ht : env.unmarshalTemplate = .ok t)
    (hl : cs.listV1 = .ok crds) :
    (Pull env fs).events =
      .listV1 :: (crdsV1 env (pathJoin [homeDir, ".ytt-lint", "schema", "k8s"]) t crds
        fs).events ∧
    (Pull env fs).exit =
      (crdsV1 env (pathJoin [homeDir, ".ytt-lint", "schema", "k8s"]) t crds fs).exit := by
  rw [Pull_eq_of_client fs hu hc hn]
  simp [hl, stableBranch, ht, Effect.andThen]

/-- The run of `Pull` against a server with the legacy API only, once the client is built
and the template parsed: the stable list call, the notice, the legacy list call, then the
legacy loops. -/
theorem Pull_legacy {env : Env} {homeDir : String} {cs : Clientset} {t : JSONSchemaProps}
    {err : GoError} {crds : List apiextensionsv1beta1.CustomResourceDefinition} (fs : FS)
    (hu : env.userCurrent = .ok homeDir) (hc : env.clientConfig = .ok ())
    (hn : env.newForConfig = .ok cs) (ht : env.unmarshalTemplate = .ok t)
    (hl : cs.listV1 = .error err) (hnf : err.notFound = true)
    (hb : cs.listV1beta1 = .ok crds) :
    (Pull env fs).events =
      .listV1 :: .stdout fallbackNotice :: .listV1beta1 ::
        (crdsV1beta1 env (pathJoin [homeDir, ".ytt-lint", "schema", "k8s"]) t crds
          fs).events ∧
    (Pull env fs).exit =
      (crdsV1beta1 env (pathJoin [homeDir, ".ytt-lint", "schema", "k8s"]) t crds fs).exit := by
  rw [Pull_eq_of_client fs hu hc hn]
  simp [hl, hnf, legacyBranch, hb, ht, Effect.andThen]

theorem calls_versionV1 (env : Env) (schemaDir : String) (t : JSONSchemaProps)
    (kind group : String) (version : CustomResourceDefinitionVersion) (fs : FS) :
    madeDirs (versionV1 env schemaDir t kind group version fs).events =
      (match (embeddedSchema version.Schema).bind (patchV1 t) with
      | none => []
      | some _ => [specDirname schemaDir group version.Name]) ∧
    written (versionV1 env schemaDir t kind group version fs).events =
      (match (embeddedSchema version.Schema).bind (patchV1 t) with
      | none => []
      | some s' =>
        match env.mkdirAllErr fs (specDirname schemaDir group version.Name) with
        | some _ => []
        | none =>
          match env.marshal s' with
          | .error _ => []
          | .ok data =>
            [(specFilename env.toLower schemaDir group version.Name kind, data)]) := by
  unfold versionV1
  cases hs : embeddedSchema version.Schema with
  | none => simp [Effect.skip, madeDirs, written]
  | some schema =>
    simp only [Option.bind]
    exact ⟨madeDirs_writeV1 _ _ _ _ _ _ _ _, written_writeV1 _ _ _ _ _ _ _ _⟩

theorem calls_versionV1beta1 (env : Env) (schemaDir : String) (t : JSONSchemaProps)
    (kind group : String) (validation : Option CustomResourceValidation)
    (version : CustomResourceDefinitionVersion) (fs : FS) :
    madeDirs (versionV1beta1 env schemaDir t kind group validation version fs).1.events =
      (match ((embeddedSchema version.Schema).or (embeddedSchema validation)).bind
        (patchV1beta1 t) with
      | none => []
      | some _ => [specDirname schemaDir group version.Name]) ∧
    written (versionV1beta1 env schemaDir t kind group validation version fs).1.events =
      (match ((embeddedSchema version.Schema).or (embeddedSchema validation)).bind
        (patchV1beta1 t) with
      | none => []
      | some s' =>
        match env.mkdirAllErr fs (specDirname schemaDir group version.Name) with
        | some _ => []
        | none =>
          match env.marshal s' with
          | .error _ => []
          | .ok data =>
            [(specFilename env.toLower schemaDir group version.Name kind, data)]) := by
  rw [versionV1beta1_fst, patchV1beta1_eq_patchV1]
  cases hs : (embeddedSchema version.Schema).or (embeddedSchema validation) with
  | none => simp [madeDirs, written]
  | some schema =>
    simp only [Option.bind]
    exact ⟨madeDirs_writeV1 _ _ _ _ _ _ _ _, written_writeV1 _ _ _ _ _ _ _ _⟩

/-! ## The claims -/

/-- C1, as stated, fails: a version whose embedded schema declares `kind` as an integer is
serialized, in either generation, with `properties.kind` of type integer and not string. -/
theorem declared_kind_keeps_its_type :
    (marshalled (Pull (Sample.stable [Sample.crdV1 "Widget" "example.com"
        [Sample.version "v1" (some Sample.declaredSchema)]]) Sample.emptyFS).events).map
      (fun s => (getProperty s "kind").map JSONSchemaProps.Type_) = [some "integer"] ∧
    (marshalled (Pull (Sample.legacy [Sample.crdV1beta1 "Widget" "example.com" none
        [Sample.version "v1beta1" (some Sample.declaredSchema)]]) Sample.emptyFS).events).map
      (fun s => (getProperty s "kind").map JSONSchemaProps.Type_) = [some "integer"] := by
  decide

/-- C1, amended: for a CRD version that carries an embedded schema, in either generation,
the schema the iteration serializes has `properties.metadata` equal to the parsed template,
and has `properties.kind` and `properties.apiVersion` present: each is the entry the schema
declared, when it declared one, and otherwise the entry of type `string` with every other
field zero.  Moreover every schema `Pull` serializes, whatever it was selected from, has
`metadata` equal to the parsed template and has `kind` and `apiVersion` present. -/
theorem serialized_schema_envelope :
    (∀ (env : Env) (schemaDir : String) (t : JSONSchemaProps) (kind group : String)
        (validation : Option CustomResourceValidation)
        (version : CustomResourceDefinitionVersion) (fs : FS) (schema s' : JSONSchemaProps),
      embeddedSchema version.Schema = some schema →
      (s' ∈ marshalled (versionV1 env schemaDir t kind group version fs).events ∨
        s' ∈ marshalled
          (versionV1beta1 env schemaDir t kind group validation version fs).1.events) →
      getProperty s' "metadata" = some t ∧
      getProperty s' "kind" =
        some ((getProperty schema "kind").getD (JSONSchemaProps.ofType "string")) ∧
      getProperty s' "apiVersion" =
        some ((getProperty schema "apiVersion").getD (JSONSchemaProps.ofType "string"))) ∧
    (∀ (env : Env) (fs : FS) (s' : JSONSchemaProps),
      s' ∈ marshalled (Pull env fs).events →
      ∃ t, env.unmarshalTemplate = .ok t ∧ getProperty s' "metadata" = some t ∧
        (getProperty s' "kind").isSome = true ∧ (getProperty s' "apiVersion").isSome = true) := by
  constructor
  · intro env schemaDir t kind group validation version fs schema s' hs hm
    have hp : patchV1 t schema = some s' := by
      rcases hm with hm | hm
      · rw [mem_marshalled] at hm
        simp only [versionV1, hs] at hm
        exact marshalled_writeV1 hm
      · rw [mem_marshalled] at hm
        simp only [versionV1beta1, hs, writeV1beta1_fst] at hm
        exact marshalled_writeV1 hm
    refine ⟨?_, ?_, ?_⟩
    · simpa using (getProperty_patchV1 hp "metadata").2
    · simpa using (getProperty_patchV1 hp "kind").2
    · simpa using (getProperty_patchV1 hp "apiVersion").2
  · intro env fs s' hm
    rw [mem_marshalled] at hm
    rcases mem_events_Pull hm with h | h | ⟨text, h⟩ |
      ⟨homeDir, t, kind, group, name, schema, fs', _, ht, h⟩
    · cases h
    · cases h
    · cases h
    · have hp := marshalled_writeV1 h
      refine ⟨t, ht, ?_, ?_, ?_⟩
      · simpa using (getProperty_patchV1 hp "metadata").2
      · simp [(getProperty_patchV1 hp "kind").2]
      · simp [(getProperty_patchV1 hp "apiVersion").2]

/-- C1, amended, at a version whose schema declares `spec` only: the serialized schema has
the template under `metadata` and string entries under `kind` and `apiVersion`. -/
theorem serialized_schema_envelope_witness :
    embeddedSchema (Sample.version "v1" (some Sample.specSchema)).Schema =
      some Sample.specSchema ∧
    Sample.specSchema.withProperties
        (some (patchedEntries Sample.template [("spec", .ofType "object")])) ∈
      marshalled (versionV1 (Sample.stable []) "/r" Sample.template "Widget" "example.com"
        (Sample.version "v1" (some Sample.specSchema)) Sample.emptyFS).events ∧
    getProperty (Sample.specSchema.withProperties
        (some (patchedEntries Sample.template [("spec", .ofType "object")]))) "kind" =
      some ((getProperty Sample.specSchema "kind").getD (JSONSchemaProps.ofType "string")) :=
  ⟨rfl, List.Mem.head _,
    (serialized_schema_envelope.1 (Sample.stable []) "/r" Sample.template "Widget"
      "example.com" none (Sample.version "v1" (some Sample.specSchema)) Sample.emptyFS
      Sample.specSchema _ rfl (Or.inl (List.Mem.head _))).2.1⟩

/-- C2, evaluated where it fails: on the schema `type: object`, whose `Properties` map is
nil, the patching statements of both branches panic at the first assignment, so `metadata`
is not set and `kind` and `apiVersion` are not added, and a legacy run that selects the
schema ends in that panic with nothing serialized; the claim has them set for every selected
schema.  The same happens on every schema with a nil map.  On every schema with a map the
statements of both branches do what the claim says: the result is the schema with only its
`Properties` changed, and there `metadata` reads as the template, `kind` and `apiVersion`
read as the declared entry or else as the entry with `Type` `string` and every other field
zero, and every other key reads as before. -/
theorem patch_sets_nothing_on_nil_map :
    (patchV1 Sample.template Sample.bareSchema = none ∧
      patchV1beta1 Sample.template Sample.bareSchema = none ∧
      (Pull (Sample.legacy [Sample.crdV1beta1 "Widget" "example.com" none
        [Sample.version "v1beta1" (some Sample.bareSchema)]]) Sample.emptyFS).exit =
        some (.panic "assignment to entry in nil map") ∧
      (marshalled (Pull (Sample.legacy [Sample.crdV1beta1 "Widget" "example.com" none
        [Sample.version "v1beta1" (some Sample.bareSchema)]]) Sample.emptyFS).events).length =
        0) ∧
    (∀ (t : JSONSchemaProps) (d ty f ti : String) (r : List String)
        (o : List (String × String)),
      patchV1 t (.mk d ty f ti r none o) = none ∧
      patchV1beta1 t (.mk d ty f ti r none o) = none) ∧
    (∀ (t : JSONSchemaProps) (d ty f ti : String) (r : List String)
        (m : List (String × JSONSchemaProps)) (o : List (String × String)),
      patchV1 t (.mk d ty f ti r (some m) o) =
        some (.mk d ty f ti r (some (patchedEntries t m)) o) ∧
      patchV1beta1 t (.mk d ty f ti r (some m) o) =
        some (.mk d ty f ti r (some (patchedEntries t m)) o)) ∧
    (∀ (t : JSONSchemaProps) (m : List (String × JSONSchemaProps)) (k : String),
      mapLookup k (patchedEntries t m) =
        if k = "metadata" then some t
        else if k = "kind" then
          some ((mapLookup "kind" m).getD (.mk "" "string" "" "" [] none []))
        else if k = "apiVersion" then
          some ((mapLookup "apiVersion" m).getD (.mk "" "string" "" "" [] none []))
        else mapLookup k m) ∧
    (patchV1 Sample.template Sample.declaredSchema =
        some (.mk "" "object" "" "" []
          (some [("kind", .mk "" "integer" "" "" [] none []), ("metadata", Sample.template),
            ("spec", .mk "" "object" "" "" [] none []),
            ("apiVersion", .mk "" "string" "" "" [] none [])]) []) ∧
      patchV1beta1 Sample.template Sample.declaredSchema =
        some (.mk "" "object" "" "" []
          (some [("kind", .mk "" "integer" "" "" [] none []), ("metadata", Sample.template),
            ("spec", .mk "" "object" "" "" [] none []),
            ("apiVersion", .mk "" "string" "" "" [] none [])]) [])) := by
  refine ⟨⟨rfl, rfl, rfl, by decide⟩, ?_, ?_, ?_, ⟨rfl, rfl⟩⟩
  · intro t d ty f ti r o
    constructor
    · rw [patchV1_eq]; rfl
    · rw [patchV1beta1_eq_patchV1, patchV1_eq]; rfl
  · intro t d ty f ti r m o
    constructor
    · rw [patchV1_eq]; rfl
    · rw [patchV1beta1_eq_patchV1, patchV1_eq]; rfl
  · intro t m k
    rw [mapLookup_patchedEntries]
    by_cases h1 : k = "metadata"
    · subst h1
      simp
    · by_cases h2 : k = "kind"
      · subst h2
        simp [JSONSchemaProps.ofType]
      · by_cases h3 : k = "apiVersion"
        · subst h3
          simp [JSONSchemaProps.ofType]
        · simp [h1, h2, h3]

/-- C3: in one iteration of either branch the directories handed to `os.MkdirAll` are
exactly `specDirname schemaDir group version.Name`, once the selected schema is patched, and
the files handed to `ioutil.WriteFile` are exactly `specFilename` of the schema directory,
the group, the version name and the kind, once the directory is made and the schema
serialized: the same two functions of the root and the triple in the stable and in the legacy
branch, which selects the schema of the version or else the shared one.  Over a whole run of
`Pull`, stable or legacy, with the schema directory derived from the home directory, every
directory made and every file written is the one of a CRD of the list and one of its
versions, and a run that returns nil has made and written exactly the directories and files
of the versions with a selected schema, in the order returned.  For a group and a version
name that are plain names and a kind whose lower-casing has no slash, the two paths are,
character for character, the schema directory followed by `/group/versionName` and by
`/group/versionName/lowercase(kind).json`. -/
theorem paths_from_root_and_triple :
    (∀ (env : Env) (schemaDir : String) (t : JSONSchemaProps) (kind group : String)
        (validation : Option CustomResourceValidation)
        (version : CustomResourceDefinitionVersion) (fs : FS),
      madeDirs (versionV1 env schemaDir t kind group version fs).events =
        (match (embeddedSchema version.Schema).bind (patchV1 t) with
        | none => []
        | some _ => [specDirname schemaDir group version.Name]) ∧
      written (versionV1 env schemaDir t kind group version fs).events =
        (match (embeddedSchema version.Schema).bind (patchV1 t) with
        | none => []
        | some s' =>
          match env.mkdirAllErr fs (specDirname schemaDir group version.Name) with
          | some _ => []
          | none =>
            match env.marshal s' with
            | .error _ => []
            | .ok data =>
              [(specFilename env.toLower schemaDir group version.Name kind, data)]) ∧
      madeDirs (versionV1beta1 env schemaDir t kind group validation version fs).1.events =
        (match ((embeddedSchema version.Schema).or (embeddedSchema validation)).bind
          (patchV1beta1 t) with
        | none => []
        | some _ => [specDirname schemaDir group version.Name]) ∧
      written (versionV1beta1 env schemaDir t kind group validation version fs).1.events =
        (match ((embeddedSchema version.Schema).or (embeddedSchema validation)).bind
          (patchV1beta1 t) with
        | none => []
        | some s' =>
          match env.mkdirAllErr fs (specDirname schemaDir group version.Name) with
          | some _ => []
          | none =>
            match env.marshal s' with
            | .error _ => []
            | .ok data =>
              [(specFilename env.toLower schemaDir group version.Name kind, data)])) ∧
    (∀ (env : Env) (fs : FS) (homeDir : String) (cs : Clientset) (t : JSONSchemaProps),
      env.userCurrent = .ok homeDir → env.clientConfig = .ok () →
      env.newForConfig = .ok cs → env.unmarshalTemplate = .ok t →
      (∀ crds, cs.listV1 = .ok crds →
        (∀ d ∈ madeDirs (Pull env fs).events, ∃ crd ∈ crds, ∃ v ∈ crd.Spec.Versions,
          d = specDirname (pathJoin [homeDir, ".ytt-lint", "schema", "k8s"])
            crd.Spec.Group v.Name) ∧
        (∀ f ∈ written (Pull env fs).events, ∃ crd ∈ crds, ∃ v ∈ crd.Spec.Versions,
          f.1 = specFilename env.toLower (pathJoin [homeDir, ".ytt-lint", "schema", "k8s"])
            crd.Spec.Group v.Name crd.Spec.Names.Kind) ∧
        ((Pull env fs).exit = none →
          madeDirs (Pull env fs).events =
            (crds.map fun crd => crd.Spec.Versions.filterMap fun v =>
              (embeddedSchema v.Schema).map fun _ =>
                specDirname (pathJoin [homeDir, ".ytt-lint", "schema", "k8s"])
                  crd.Spec.Group v.Name).flatten ∧
          (written (Pull env fs).events).map Prod.fst =
            (crds.map fun crd => crd.Spec.Versions.filterMap fun v =>
              (embeddedSchema v.Schema).map fun _ =>
                specFilename env.toLower (pathJoin [homeDir, ".ytt-lint", "schema", "k8s"])
                  crd.Spec.Group v.Name crd.Spec.Names.Kind).flatten)) ∧
      (∀ err crds, cs.listV1 = .error err → err.notFound = true →
        cs.listV1beta1 = .ok crds →
        (∀ d ∈ madeDirs (Pull env fs).events, ∃ crd ∈ crds, ∃ v ∈ crd.Spec.Versions,
          d = specDirname (pathJoin [homeDir, ".ytt-lint", "schema", "k8s"])
            crd.Spec.Group v.Name) ∧
        (∀ f ∈ written (Pull env fs).events, ∃ crd ∈ crds, ∃ v ∈ crd.Spec.Versions,
          f.1 = specFilename env.toLower (pathJoin [homeDir, ".ytt-lint", "schema", "k8s"])
            crd.Spec.Group v.Name crd.Spec.Names.Kind) ∧
        ((Pull env fs).exit = none →
          madeDirs (Pull env fs).events =
            (crds.map fun crd => crd.Spec.Versions.filterMap fun v =>
              ((embeddedSchema v.Schema).or (embeddedSchema crd.Spec.Validation)).map fun _ =>
                specDirname (pathJoin [homeDir, ".ytt-lint", "schema", "k8s"])
                  crd.Spec.Group v.Name).flatten ∧
          (written (Pull env fs).events).map Prod.fst =
            (crds.map fun crd => crd.Spec.Versions.filterMap fun v =>
              ((embeddedSchema v.Schema).or (embeddedSchema crd.Spec.Validation)).map fun _ =>
                specFilename env.toLower (pathJoin [homeDir, ".ytt-lint", "schema", "k8s"])
                  crd.Spec.Group v.Name crd.Spec.Names.Kind).flatten))) ∧
    (∀ (lowercase : String → String) (homeDir group name kind : String),
      PlainName group → PlainName name → '/' ∉ (lowercase kind).data →
      specDirname (pathJoin [homeDir, ".ytt-lint", "schema", "k8s"]) group name =
        pathJoin [homeDir, ".ytt-lint", "schema", "k8s"] ++ "/" ++ group ++ "/" ++ name ∧
      specFilename lowercase (pathJoin [homeDir, ".ytt-lint", "schema", "k8s"]) group name
          kind =
        pathJoin [homeDir, ".ytt-lint", "schema", "k8s"] ++ "/" ++ group ++ "/" ++ name ++
          "/" ++ (lowercase kind ++ ".json")) := by
  have hdir : ∀ {o : Option JSONSchemaProps} {d x : String},
      d ∈ (match o with
        | none => []
        | some _ => [x]) → d = x := by
    intro o d x hd
    cases o with
    | none => simp at hd
    | some s => simpa using hd
  have hfile : ∀ (env : Env) (fs : FS) {o : Option JSONSchemaProps} {dir x : String}
      {f : String × String},
      f ∈ (match o with
        | none => []
        | some s' =>
          match env.mkdirAllErr fs dir with
          | some _ => []
          | none =>
            match env.marshal s' with
            | .error _ => []
            | .ok data => [(x, data)]) → f.1 = x := by
    intro env fs o dir x f hf
    cases o with
    | none => simp at hf
    | some s =>
      simp only at hf
      cases hm : env.mkdirAllErr fs dir with
      | some e => simp [hm] at hf
      | none =>
        simp only [hm] at hf
        cases hj : env.marshal s with
        | error e => simp [hj] at hf
        | ok data =>
          simp only [hj, List.mem_singleton] at hf
          rw [hf]
  refine ⟨?_, ?_, ?_⟩
  · intro env schemaDir t kind group validation version fs
    exact ⟨(calls_versionV1 env schemaDir t kind group version fs).1,
      (calls_versionV1 env schemaDir t kind group version fs).2,
      (calls_versionV1beta1 env schemaDir t kind group validation version fs).1,
      (calls_versionV1beta1 env schemaDir t kind group validation version fs).2⟩
  · intro env fs homeDir cs t hu hc hn ht
    constructor
    · intro crds hl
      obtain ⟨hev, hex⟩ := Pull_stable fs hu hc hn ht hl
      refine ⟨?_, ?_, ?_⟩
      · intro d hd
        rw [hev] at hd
        have hd' : Event.mkdirAll d ∈ (crdsV1 env (pathJoin [homeDir, ".ytt-lint", "schema", "k8s"]) t crds fs).events := by
          have := mem_madeDirs.mp hd
          simpa using this
        obtain ⟨crd, hcrd, v, hv, fs', hmem⟩ := mem_events_crdsV1 hd'
        refine ⟨crd, hcrd, v, hv, ?_⟩
        have := mem_madeDirs.mpr hmem
        rw [(calls_versionV1 env (pathJoin [homeDir, ".ytt-lint", "schema", "k8s"]) t _ _ v fs').1] at this
        exact hdir this
      · intro f hf
        rw [hev] at hf
        have hf' : Event.writeFile f.1 f.2 ∈ (crdsV1 env (pathJoin [homeDir, ".ytt-lint", "schema", "k8s"]) t crds fs).events := by
          have := mem_written.mp hf
          simpa using this
        obtain ⟨crd, hcrd, v, hv, fs', hmem⟩ := mem_events_crdsV1 hf'
        refine ⟨crd, hcrd, v, hv, ?_⟩
        have := mem_written.mpr hmem
        rw [(calls_versionV1 env (pathJoin [homeDir, ".ytt-lint", "schema", "k8s"]) t _ _ v fs').2] at this
        exact hfile env fs' this
      · intro hnone
        rw [hex] at hnone
        have := calls_crdsV1_of_exit_none crds fs hnone
        rw [hev]
        simpa [madeDirs, written] using this
    · intro err crds hl hnf hb
      obtain ⟨hev, hex⟩ := Pull_legacy fs hu hc hn ht hl hnf hb
      refine ⟨?_, ?_, ?_⟩
      · intro d hd
        rw [hev] at hd
        have hd' : Event.mkdirAll d ∈ (crdsV1beta1 env (pathJoin [homeDir, ".ytt-lint", "schema", "k8s"]) t crds fs).events := by
          have := mem_madeDirs.mp hd
          simpa using this
        obtain ⟨crd, hcrd, v, hv, val, fs', hmem⟩ := mem_events_crdsV1beta1 hd'
        refine ⟨crd, hcrd, v, hv, ?_⟩
        have := mem_madeDirs.mpr hmem
        rw [(calls_versionV1beta1 env (pathJoin [homeDir, ".ytt-lint", "schema", "k8s"]) t _ _ val v fs').1] at this
        exact hdir this
      · intro f hf
        rw [hev] at hf
        have hf' : Event.writeFile f.1 f.2 ∈ (crdsV1beta1 env (pathJoin [homeDir, ".ytt-lint", "schema", "k8s"]) t crds fs).events := by
          have := mem_written.mp hf
          simpa using this
        obtain ⟨crd, hcrd, v, hv, val, fs', hmem⟩ := mem_events_crdsV1beta1 hf'
        refine ⟨crd, hcrd, v, hv, ?_⟩
        have := mem_written.mpr hmem
        rw [(calls_versionV1beta1 env (pathJoin [homeDir, ".ytt-lint", "schema", "k8s"]) t _ _ val v fs').2] at this
        exact hfile env fs' this
      · intro hnone
        rw [hex] at hnone
        have := calls_crdsV1beta1_of_exit_none crds fs hnone
        rw [hev]
        simpa [madeDirs, written] using this
  · intro lowercase homeDir group name kind hg hn hk
    have hroot := isCleanPath_schemaDir homeDir
    have hdir := pathJoin_triple hroot hg.plainElem hn.plainElem
    refine ⟨hdir, ?_⟩
    unfold specFilename specDirname
    rw [hdir]
    exact pathJoin_pair ((hroot.append hg.plainElem).1.append hn.plainElem).1
      (plainElem_json hk)

/-- C3 at a legacy server with the CRD `Widget` of group `example.com`, whose versions
`v1alpha1` and `v1beta1` fall back on the shared schema, and the CRD `Gadget` of group
`example.org` with its own schema: the run returns nil and makes and writes the three paths,
in order.  The stable iteration for `Widget`, version `v1`, makes the directory of that pair;
the names are plain, so the file path is the literal one. -/
theorem paths_from_root_and_triple_witness :
    ((Pull (Sample.legacy [
        Sample.crdV1beta1 "Widget" "example.com" (some Sample.specSchema)
          [Sample.version "v1alpha1" none, Sample.version "v1beta1" none],
        Sample.crdV1beta1 "Gadget" "example.org" none
          [Sample.version "v1" (some Sample.specSchema)]]) Sample.emptyFS).exit = none ∧
      madeDirs (Pull (Sample.legacy [
        Sample.crdV1beta1 "Widget" "example.com" (some Sample.specSchema)
          [Sample.version "v1alpha1" none, Sample.version "v1beta1" none],
        Sample.crdV1beta1 "Gadget" "example.org" none
          [Sample.version "v1" (some Sample.specSchema)]]) Sample.emptyFS).events =
        ["/home/u/.ytt-lint/schema/k8s/example.com/v1alpha1",
          "/home/u/.ytt-lint/schema/k8s/example.com/v1beta1",
          "/home/u/.ytt-lint/schema/k8s/example.org/v1"] ∧
      (written (Pull (Sample.legacy [
        Sample.crdV1beta1 "Widget" "example.com" (some Sample.specSchema)
          [Sample.version "v1alpha1" none, Sample.version "v1beta1" none],
        Sample.crdV1beta1 "Gadget" "example.org" none
          [Sample.version "v1" (some Sample.specSchema)]]) Sample.emptyFS).events).map
        Prod.fst =
        ["/home/u/.ytt-lint/schema/k8s/example.com/v1alpha1/widget.json",
          "/home/u/.ytt-lint/schema/k8s/example.com/v1beta1/widget.json",
          "/home/u/.ytt-lint/schema/k8s/example.org/v1/gadget.json"]) ∧
    madeDirs (versionV1beta1 (Sample.legacy []) "/home/u/.ytt-lint/schema/k8s" Sample.template
      "Widget" "example.com" (some ⟨some Sample.specSchema⟩) (Sample.version "v1beta1" none)
      Sample.emptyFS).1.events = ["/home/u/.ytt-lint/schema/k8s/example.com/v1beta1"] ∧
    madeDirs (versionV1 (Sample.stable []) "/home/u/.ytt-lint/schema/k8s" Sample.template
      "Widget" "example.com" (Sample.version "v1" (some Sample.specSchema))
      Sample.emptyFS).events = ["/home/u/.ytt-lint/schema/k8s/example.com/v1"] ∧
    (PlainName "example.com" ∧ PlainName "v1" ∧ '/' ∉ (Sample.toLower "Widget").data ∧
      specFilename Sample.toLower (pathJoin ["/home/u", ".ytt-lint", "schema", "k8s"])
          "example.com" "v1" "Widget" =
        "/home/u/.ytt-lint/schema/k8s/example.com/v1/widget.json") :=
  ⟨⟨rfl,
      ((paths_from_root_and_triple.2.1 (Sample.legacy [
        Sample.crdV1beta1 "Widget" "example.com" (some Sample.specSchema)
          [Sample.version "v1alpha1" none, Sample.version "v1beta1" none],
        Sample.crdV1beta1 "Gadget" "example.org" none
          [Sample.version "v1" (some Sample.specSchema)]]) Sample.emptyFS "/home/u"
        (Sample.legacyClient _) Sample.template rfl rfl rfl rfl).2 Sample.notFound _ rfl rfl
        rfl).2.2 rfl⟩,
    (paths_from_root_and_triple.1 (Sample.legacy []) "/home/u/.ytt-lint/schema/k8s"
      Sample.template "Widget" "example.com" (some ⟨some Sample.specSchema⟩)
      (Sample.version "v1beta1" none) Sample.emptyFS).2.2.1,
    (paths_from_root_and_triple.1 (Sample.stable []) "/home/u/.ytt-lint/schema/k8s"
      Sample.template "Widget" "example.com" none
      (Sample.version "v1" (some Sample.specSchema)) Sample.emptyFS).1,
    ⟨by decide, by decide, by decide, by decide⟩,
    ⟨by decide, by decide, by decide, by decide⟩, by decide,
    (paths_from_root_and_triple.2.2 Sample.toLower "/home/u" "example.com" "v1" "Widget"
      ⟨by decide, by decide, by decide, by decide⟩
      ⟨by decide, by decide, by decide, by decide⟩ (by decide)).2⟩

/-- C4, evaluated where it fails: a legacy CRD whose shared schema is `type: object` with no
properties, and one version without a schema of its own.  The claim has one file written
for the version; the assignment on line 70 panics on the nil map and nothing is written.
With a shared schema that has a `properties` map the same CRD, with two such versions, gets
one file per version, both holding the patched shared schema; with no shared schema the
version is skipped with one notice. -/
theorem legacy_shared_bare_schema_panics :
    ((Pull (Sample.legacy [Sample.crdV1beta1 "Widget" "example.com" (some Sample.bareSchema)
      [Sample.version "v1beta1" none]]) Sample.emptyFS).exit =
      some (.panic "assignment to entry in nil map") ∧
    written (Pull (Sample.legacy [Sample.crdV1beta1 "Widget" "example.com"
      (some Sample.bareSchema) [Sample.version "v1beta1" none]]) Sample.emptyFS).events = []) ∧
    ((Pull (Sample.legacy [Sample.crdV1beta1 "Widget" "example.com" (some Sample.specSchema)
      [Sample.version "v1alpha1" none, Sample.version "v1beta1" none]])
      Sample.emptyFS).exit = none ∧
    written (Pull (Sample.legacy [Sample.crdV1beta1 "Widget" "example.com"
      (some Sample.specSchema) [Sample.version "v1alpha1" none, Sample.version "v1beta1" none]])
      Sample.emptyFS).events =
      [("/home/u/.ytt-lint/schema/k8s/example.com/v1alpha1/widget.json",
          "object(spec:object,metadata:object,kind:string,apiVersion:string)"),
        ("/home/u/.ytt-lint/schema/k8s/example.com/v1beta1/widget.json",
          "object(spec:object,metadata:object,kind:string,apiVersion:string)")]) ∧
    ((Pull (Sample.legacy [Sample.crdV1beta1 "Widget" "example.com" none
      [Sample.version "v1beta1" none]]) Sample.emptyFS).exit = none ∧
    written (Pull (Sample.legacy [Sample.crdV1beta1 "Widget" "example.com" none
      [Sample.version "v1beta1" none]]) Sample.emptyFS).events = [] ∧
    printed (Pull (Sample.legacy [Sample.crdV1beta1 "Widget" "example.com" none
      [Sample.version "v1beta1" none]]) Sample.emptyFS).events =
      [fallbackNotice,
        "Widget version v1beta1 of group example.com does not contain a schema and will be skipped.\n"]) :=
  ⟨⟨rfl, by decide⟩, ⟨rfl, by decide⟩, ⟨rfl, by decide, by decide⟩⟩

/-- C5, evaluated where it fails: a stable CRD with two versions that both carry a schema,
the first one `type: object` with no properties.  No file-system or serialization step fails;
the claim has two files written, the run panics on line 121 and writes none.  When the first
schema has a `properties` map, the versions with a schema get their files in the order
returned and the version without one is passed over in silence. -/
theorem stable_bare_schema_stops_the_run :
    ((Pull (Sample.stable [Sample.crdV1 "Widget" "example.com"
      [Sample.version "v1" (some Sample.bareSchema),
        Sample.version "v2" (some Sample.specSchema)]]) Sample.emptyFS).exit =
      some (.panic "assignment to entry in nil map") ∧
    written (Pull (Sample.stable [Sample.crdV1 "Widget" "example.com"
      [Sample.version "v1" (some Sample.bareSchema),
        Sample.version "v2" (some Sample.specSchema)]]) Sample.emptyFS).events = []) ∧
    ((Pull (Sample.stable [Sample.crdV1 "Widget" "example.com"
      [Sample.version "v2" (some Sample.specSchema), Sample.version "v1alpha1" none,
        Sample.version "v1" (some Sample.declaredSchema)]]) Sample.emptyFS).exit = none ∧
    (written (Pull (Sample.stable [Sample.crdV1 "Widget" "example.com"
      [Sample.version "v2" (some Sample.specSchema), Sample.version "v1alpha1" none,
        Sample.version "v1" (some Sample.declaredSchema)]]) Sample.emptyFS).events).map
      Prod.fst =
      ["/home/u/.ytt-lint/schema/k8s/example.com/v2/widget.json",
        "/home/u/.ytt-lint/schema/k8s/example.com/v1/widget.json"] ∧
    (printed (Pull (Sample.stable [Sample.crdV1 "Widget" "example.com"
      [Sample.version "v2" (some Sample.specSchema), Sample.version "v1alpha1" none,
        Sample.version "v1" (some Sample.declaredSchema)]]) Sample.emptyFS).events).length =
      2) :=
  ⟨⟨rfl, by decide⟩, ⟨rfl, by decide, by decide⟩⟩

/-- C6: once the client is built, `Pull` makes the stable list call exactly once.  When it
succeeds, the calls that follow are those of the stable loop and the legacy list is not
called.  When it fails with a not-found error, the fallback notice is printed once, the legacy
list is called once, and the calls that follow are those of the legacy loop; a failing legacy
list call makes `Pull` return an error with no file written.  When it fails with another
error, `Pull` returns an error, the legacy list is not called and no file is written. -/
theorem Pull_version_selection (env : Env) (fs : FS) (homeDir : String) (cs : Clientset)
    (hu : env.userCurrent = .ok homeDir) (hc : env.clientConfig = .ok ())
    (hn : env.newForConfig = .ok cs) :
    (Pull env fs).events.countP Event.isListV1 = 1 ∧
    (∀ crds, cs.listV1 = .ok crds →
      (Pull env fs).events.countP Event.isListV1beta1 = 0 ∧
      (Pull env fs).events.countP (Event.isStdout fallbackNotice) = 0 ∧
      ∀ t, env.unmarshalTemplate = .ok t →
        Pull env fs = Effect.andThen ⟨fs, [.listV1], none⟩
          (crdsV1 env (pathJoin [homeDir, ".ytt-lint", "schema", "k8s"]) t crds)) ∧
    (∀ err, cs.listV1 = .error err → err.notFound = true →
      (Pull env fs).events.countP (Event.isStdout fallbackNotice) = 1 ∧
      (Pull env fs).events.countP Event.isListV1beta1 = 1 ∧
      (∀ crds t, cs.listV1beta1 = .ok crds → env.unmarshalTemplate = .ok t →
        Pull env fs = Effect.andThen ⟨fs, [.listV1, .stdout fallbackNotice, .listV1beta1], none⟩
          (crdsV1beta1 env (pathJoin [homeDir, ".ytt-lint", "schema", "k8s"]) t crds)) ∧
      (∀ err', cs.listV1beta1 = .error err' →
        (∃ msg, (Pull env fs).exit = some (.error msg)) ∧ (Pull env fs).fs = fs ∧
        (Pull env fs).events.countP Event.isWriteFile = 0)) ∧
    (∀ err, cs.listV1 = .error err → err.notFound = false →
      (∃ msg, (Pull env fs).exit = some (.error msg)) ∧
      (Pull env fs).events.countP Event.isListV1beta1 = 0 ∧ (Pull env fs).fs = fs ∧
      (Pull env fs).events.countP Event.isWriteFile = 0) := by
  rw [Pull_eq_of_client fs hu hc hn]
  set schemaDir := pathJoin [homeDir, ".ytt-lint", "schema", "k8s"]
  cases hl : cs.listV1 with
  | ok crds =>
    have hz := countP_eq_zero_of_fromLoop (fromLoop_stableBranch env schemaDir crds fs)
    refine ⟨?_, ?_, ?_, ?_⟩
    · simp [Effect.andThen_events, List.countP_cons, hz.1, Event.isListV1]
    · intro crds' hc'
      cases hc'
      refine ⟨?_, ?_, ?_⟩
      · simp [Effect.andThen_events, List.countP_cons, hz.2.1, Event.isListV1beta1]
      · simp [Effect.andThen_events, List.countP_cons, hz.2.2, Event.isStdout]
      · intro t ht
        have hfun : stableBranch env schemaDir crds = crdsV1 env schemaDir t crds := by
          funext fs'
          simp [stableBranch, ht]
        simp only [hfun]
    · intro err h; cases h
    · intro err h; cases h
  | error err =>
    by_cases hnf : err.notFound = true
    · simp only [hnf, Bool.not_true, Bool.false_eq_true, if_false]
      have hleg : ∀ e ∈ (legacyBranch env schemaDir cs fs).events,
          e = .listV1beta1 ∨ e.fromLoop := by
        intro e he
        unfold legacyBranch at he
        split at he
        · simp at he; exact Or.inl he
        · split at he
          · simp at he; exact Or.inl he
          · rw [Effect.andThen_events] at he
            simp at he
            rcases he with h | h
            · exact Or.inl h
            · exact Or.inr (fromLoop_crdsV1beta1 _ _ _ _ _ e h)
      have hz : (legacyBranch env schemaDir cs fs).events.countP Event.isListV1 = 0 ∧
          (legacyBranch env schemaDir cs fs).events.countP (Event.isStdout fallbackNotice) = 0 := by
        constructor <;>
        · rw [List.countP_eq_zero]
          intro e he
          rcases hleg e he with h | h
          · subst h; simp [Event.isListV1, Event.isStdout]
          · cases e <;> simp_all [Event.fromLoop, Event.isListV1, Event.isStdout]
      have hone : (legacyBranch env schemaDir cs fs).events.countP Event.isListV1beta1 = 1 := by
        unfold legacyBranch
        split
        · simp [Event.isListV1beta1]
        · next crds _ =>
          split
          · simp [Event.isListV1beta1]
          · next t _ =>
            have := (countP_eq_zero_of_fromLoop (fromLoop_crdsV1beta1 env schemaDir t crds fs)).2.1
            simp [Effect.andThen_events, List.countP_cons, Event.isListV1beta1, this]
      refine ⟨?_, ?_, ?_, ?_⟩
      · simp [Effect.andThen_events, List.countP_cons, hz.1, Event.isListV1]
      · intro crds h; cases h
      · intro err' h _
        cases h
        refine ⟨?_, ?_, ?_, ?_⟩
        · simp [Effect.andThen_events, List.countP_cons, hz.2, Event.isStdout]
        · simp [Effect.andThen_events, List.countP_cons, hone, Event.isListV1beta1]
        · intro crds t hcr ht
          simp [legacyBranch, hcr, ht, Effect.andThen]
        · intro err' he'
          simp [legacyBranch, he', Effect.andThen, Event.isWriteFile]
      · intro err' h hf
        cases h
        rw [hnf] at hf
        cases hf
    · have hnf' : err.notFound = false := by simpa using hnf
      simp only [hnf', Bool.not_false, if_true]
      refine ⟨?_, ?_, ?_, ?_⟩
      · simp [Event.isListV1]
      · intro crds h; cases h
      · intro err' h hf
        cases h
        rw [hnf'] at hf
        cases hf
      · intro err' h _
        cases h
        simp [Event.isListV1beta1, Event.isWriteFile]

/-- C6 at a server that has the legacy API only and whose legacy list call is refused. -/
theorem Pull_version_selection_witness :
    (Sample.env (.ok ⟨.error Sample.notFound, .error ⟨"connection refused", false⟩⟩)).newForConfig =
      .ok ⟨.error Sample.notFound, .error ⟨"connection refused", false⟩⟩ ∧
    (Pull (Sample.env (.ok ⟨.error Sample.notFound, .error ⟨"connection refused", false⟩⟩))
      Sample.emptyFS).events.countP Event.isListV1 = 1 :=
  ⟨rfl, (Pull_version_selection
    (Sample.env (.ok ⟨.error Sample.notFound, .error ⟨"connection refused", false⟩⟩))
    Sample.emptyFS "/home/u" ⟨.error Sample.notFound, .error ⟨"connection refused", false⟩⟩
    rfl rfl rfl).1⟩

/-- C7, evaluated where it fails: on the schema `type: object`, whose `Properties` map is
nil, the patching statements of both branches panic at the first assignment, and so does the
run of `Pull` that selects it. -/
theorem patch_of_bare_schema_panics :
    patchV1 Sample.template Sample.bareSchema = none ∧
    patchV1beta1 Sample.template Sample.bareSchema = none ∧
    (Pull (Sample.stable [Sample.crdV1 "Widget" "example.com"
      [Sample.version "v1" (some Sample.bareSchema)]]) Sample.emptyFS).exit =
      some (.panic "assignment to entry in nil map") :=
  ⟨rfl, rfl, rfl⟩

/-- C8, evaluated where it fails: the configuration loads and `NewForConfig` returns an
error.  The claim has `Pull` return an error; the error is never read and the list call on
line 35 goes through the nil clientset, which is a panic, not a returned error.  A failing
`ClientConfig`, in contrast, is returned as an error. -/
theorem unusable_clientset_is_not_reported :
    (Pull (Sample.env (.error ⟨"unable to load root certificates", false⟩))
      Sample.emptyFS).exit =
      some (.panic "runtime error: invalid memory address or nil pointer dereference") ∧
    (Pull { Sample.env (.error ⟨"unable to load root certificates", false⟩) with
        clientConfig := .error ⟨"invalid configuration", false⟩ } Sample.emptyFS).exit =
      some (.error "kubeConfig.ClientConfig(): invalid configuration") :=
  ⟨rfl, rfl⟩

/-- C9, evaluated where it fails: the stable list call is answered with not-found and the
legacy list call is refused.  The claim has the error reported under the name of the legacy
call; the message names `ApiextensionsV1()`, the stable call. -/
theorem legacy_list_error_names_the_stable_call :
    (Pull (Sample.env (.ok ⟨.error Sample.notFound, .error ⟨"connection refused", false⟩⟩))
      Sample.emptyFS).exit =
      some (.error
        "crdClientset.ApiextensionsV1().CustomResourceDefinitions().List(): connection refused") ∧
    (Pull (Sample.env (.ok ⟨.error ⟨"connection refused", false⟩, .ok []⟩))
      Sample.emptyFS).exit =
      some (.error
        "crdClientset.ApiextensionsV1().CustomResourceDefinitions().List(): connection refused") :=
  ⟨rfl, rfl⟩

/-- C10, evaluated where it fails: three stable CRDs on a healthy file system, the second
with the schema `type: object` and no properties.  No directory creation, serialization or
write fails; the claim has `Pull` return success after every CRD, the run panics at the
second CRD with the first file written and the third CRD never reached.  When instead the
second schema has a `properties` map and its directory cannot be made, `Pull` returns the
wrapped error, goes no further, and the first file stays as written. -/
theorem healthy_run_does_not_finish :
    ((Pull (Sample.stable [
      Sample.crdV1 "Widget" "example.com" [Sample.version "v1" (some Sample.specSchema)],
      Sample.crdV1 "Gadget" "example.com" [Sample.version "v1" (some Sample.bareSchema)],
      Sample.crdV1 "Gizmo" "example.com" [Sample.version "v1" (some Sample.specSchema)]])
      Sample.emptyFS).exit = some (.panic "assignment to entry in nil map") ∧
    (written (Pull (Sample.stable [
      Sample.crdV1 "Widget" "example.com" [Sample.version "v1" (some Sample.specSchema)],
      Sample.crdV1 "Gadget" "example.com" [Sample.version "v1" (some Sample.bareSchema)],
      Sample.crdV1 "Gizmo" "example.com" [Sample.version "v1" (some Sample.specSchema)]])
      Sample.emptyFS).events).map Prod.fst =
      ["/home/u/.ytt-lint/schema/k8s/example.com/v1/widget.json"]) ∧
    ((Pull (Sample.readOnlyAt "/home/u/.ytt-lint/schema/k8s/example.org/v1" [
      Sample.crdV1 "Widget" "example.com" [Sample.version "v1" (some Sample.specSchema)],
      Sample.crdV1 "Gadget" "example.org" [Sample.version "v1" (some Sample.specSchema)],
      Sample.crdV1 "Gizmo" "example.com" [Sample.version "v1" (some Sample.specSchema)]])
      Sample.emptyFS).exit = some (.error "os.MkdirAll: permission denied") ∧
    madeDirs (Pull (Sample.readOnlyAt "/home/u/.ytt-lint/schema/k8s/example.org/v1" [
      Sample.crdV1 "Widget" "example.com" [Sample.version "v1" (some Sample.specSchema)],
      Sample.crdV1 "Gadget" "example.org" [Sample.version "v1" (some Sample.specSchema)],
      Sample.crdV1 "Gizmo" "example.com" [Sample.version "v1" (some Sample.specSchema)]])
      Sample.emptyFS).events =
      ["/home/u/.ytt-lint/schema/k8s/example.com/v1",
        "/home/u/.ytt-lint/schema/k8s/example.org/v1"] ∧
    (Pull (Sample.readOnlyAt "/home/u/.ytt-lint/schema/k8s/example.org/v1" [
      Sample.crdV1 "Widget" "example.com" [Sample.version "v1" (some Sample.specSchema)],
      Sample.crdV1 "Gadget" "example.org" [Sample.version "v1" (some Sample.specSchema)],
      Sample.crdV1 "Gizmo" "example.com" [Sample.version "v1" (some Sample.specSchema)]])
      Sample.emptyFS).fs.files =
      [("/home/u/.ytt-lint/schema/k8s/example.com/v1/widget.json",
        "object(spec:object,metadata:object,kind:string,apiVersion:string)")]) :=
  ⟨⟨rfl, by decide⟩, ⟨rfl, by decide, by decide⟩⟩
end YttLint
